import Mathlib

/-!
# Privacy-enabled state: update batches and the transient store

A shallow embedding of

* `core/ledger/kvledger/txmgmt/privacyenabledstate/db.go`: the `UpdateMap`
  family of update batches (`Put`, `Delete`, `Get`, `IsEmpty`, `Contains`);
* the composite-key codec and the transient store of
  `core/ledger/kvledger/pvtrwstorage`, whose test file is the only part of that
  package at hand; the code under test is modelled from the specification.

Go values are embedded as follows.

* A Go `string` is an immutable byte sequence: `GoString := List Byte`.
* A Go `[]byte` may be `nil`: `GoBytes := Option (List Byte)`, `none` being `nil`.
  The conversion `string(b)` yields the bytes of `b`, the empty string for `nil`.
* A Go `map[K]V` obtained from `make` is an association list (`GoMap`); reading an
  absent key yields `none` (the `ok == false` branch), writing replaces or adds.
* A pointer that may be `nil` is an `Option`.
* `nsBatch` wraps a pointer to its `statedb.UpdateBatch`, so a write through the
  value returned by `getOrCreateNsBatch` is seen through the map entry; in the
  state-passing embedding the updated sub-batch is stored back under its namespace.
-/

namespace Fabric

/-! ## Go values -/

/-- One byte. -/
abbrev Byte := Fin 256

/-- A Go `string`: an immutable sequence of bytes. -/
abbrev GoString := List Byte

/-- A Go `[]byte`; `none` is the `nil` slice. -/
abbrev GoBytes := Option (List Byte)

/-- The Go conversion `string(b)` of a byte slice. -/
def GoBytes.toGoString : GoBytes → GoString
  | none => []
  | some bs => bs

/-- A Go map created by `make`, as an association list. -/
abbrev GoMap (κ ν : Type) := List (κ × ν)

namespace GoMap

variable {κ ν : Type} [DecidableEq κ]

/-- The read `v, ok := m[k]`; `none` stands for `ok == false`. -/
def get : GoMap κ ν → κ → Option ν
  | [], _ => none
  | (k', v) :: m, k => if k' = k then some v else get m k

/-- The write `m[k] = v`. -/
def set : GoMap κ ν → κ → ν → GoMap κ ν
  | [], k, v => [(k, v)]
  | (k', v') :: m, k, v => if k' = k then (k, v) :: m else (k', v') :: set m k v

/-- The builtin `len(m)`. -/
def len (m : GoMap κ ν) : Nat := m.length

end GoMap

/-! ## `version.Height` and `statedb` -/

/-- The type `version.Height`: a block number and a transaction number. -/
structure version.Height where
  BlockNum : Nat
  TxNum : Nat
  deriving DecidableEq, Repr

/-- The type `statedb.VersionedValue`; a `nil` value marks a tombstone. -/
structure statedb.VersionedValue where
  Value : GoBytes
  Version : Option version.Height
  deriving DecidableEq, Repr

/-- Modelled from the spec: the type `statedb.UpdateBatch` behind `nsBatch`, whose
package is not among the sources. The sub-batch maps (collectionName, key) to a
`VersionedValue`. -/
structure statedb.UpdateBatch where
  updates : GoMap (GoString × GoString) statedb.VersionedValue
  deriving DecidableEq, Repr

/-- Modelled from the spec: the function `statedb.NewUpdateBatch`, not among the sources;
it returns an empty sub-batch. -/
def statedb.NewUpdateBatch : statedb.UpdateBatch := ⟨[]⟩

namespace statedb.UpdateBatch

/-- Modelled from the spec: the method `statedb.UpdateBatch.Put`, not among the sources;
it records a pending write and overwrites any prior pending entry for the identical
(collection, key). -/
def Put (batch : statedb.UpdateBatch) (ns key : GoString) (value : GoBytes)
    (version : Option version.Height) : statedb.UpdateBatch :=
  ⟨batch.updates.set (ns, key) ⟨value, version⟩⟩

/-- Modelled from the spec: the method `statedb.UpdateBatch.Delete`, not among the
sources; it records a pending tombstone, distinct from "no entry". -/
def Delete (batch : statedb.UpdateBatch) (ns key : GoString)
    (version : Option version.Height) : statedb.UpdateBatch :=
  ⟨batch.updates.set (ns, key) ⟨none, version⟩⟩

/-- Modelled from the spec: the method `statedb.UpdateBatch.Get`, not among the sources;
it returns the pending entry if present, else none. -/
def Get (batch : statedb.UpdateBatch) (ns key : GoString) : Option statedb.VersionedValue :=
  batch.updates.get (ns, key)

/-- Modelled from the spec: the method `statedb.UpdateBatch.Exists`, not among the
sources; it is true iff a pending put or delete exists for the pair. -/
def Exists (batch : statedb.UpdateBatch) (ns key : GoString) : Bool :=
  (batch.updates.get (ns, key)).isSome

/-- Modelled from the spec: the method `statedb.UpdateBatch.GetUpdatedNamespaces`, not
among the sources; the names under which the sub-batch holds an entry, each once. -/
def GetUpdatedNamespaces (batch : statedb.UpdateBatch) : List GoString :=
  (batch.updates.map (fun e => e.1.1)).dedup

end statedb.UpdateBatch

/-! ## `privacyenabledstate/db.go` -/

/-- The type `nsBatch`: the updates related to one namespace. -/
structure nsBatch where
  UpdateBatch : statedb.UpdateBatch
  deriving DecidableEq, Repr

/-- The type `UpdateMap`: entries of tuple (Namespace, UpdatesForNamespace). -/
abbrev UpdateMap := GoMap GoString nsBatch

/-- The type `HashedUpdateBatch`: updates for the hashes of the private data. -/
structure HashedUpdateBatch where
  UpdateMap : UpdateMap
  deriving DecidableEq, Repr

/-- The type `PvtUpdateBatch`: updates for the private data. -/
structure PvtUpdateBatch where
  UpdateMap : UpdateMap
  deriving DecidableEq, Repr

/-- The type `PubUpdateBatch`: updates for the public data. -/
structure PubUpdateBatch where
  UpdateBatch : statedb.UpdateBatch
  deriving DecidableEq, Repr

/-- The type `UpdateBatch`: the updates to public, hashed and private data. -/
structure UpdateBatch where
  PubUpdates : PubUpdateBatch
  HashUpdates : HashedUpdateBatch
  PvtUpdates : PvtUpdateBatch
  deriving DecidableEq, Repr

/-- The function `NewPubUpdateBatch`. -/
def NewPubUpdateBatch : PubUpdateBatch := ⟨statedb.NewUpdateBatch⟩

/-- The function `NewHashedUpdateBatch`: `make(map[string]nsBatch)`. -/
def NewHashedUpdateBatch : HashedUpdateBatch := ⟨[]⟩

/-- The function `NewPvtUpdateBatch`: `make(map[string]nsBatch)`. -/
def NewPvtUpdateBatch : PvtUpdateBatch := ⟨[]⟩

/-- The function `NewUpdateBatch`. -/
def NewUpdateBatch : UpdateBatch :=
  ⟨NewPubUpdateBatch, NewHashedUpdateBatch, NewPvtUpdateBatch⟩

namespace UpdateMap

/-- The method `UpdateMap.IsEmpty`: `len(b) == 0`. -/
def IsEmpty (b : UpdateMap) : Bool := GoMap.len b == 0

/-- The method `UpdateMap.getOrCreateNsBatch`: the sub-batch of `ns`, created and
stored in the map when absent. Returns the map after the call and the sub-batch. -/
def getOrCreateNsBatch (b : UpdateMap) (ns : GoString) : UpdateMap × nsBatch :=
  match GoMap.get b ns with
  | some batch => (b, batch)
  | none =>
    let batch : nsBatch := ⟨statedb.NewUpdateBatch⟩
    (GoMap.set b ns batch, batch)

/-- The method `UpdateMap.Put`. The sub-batch is shared by pointer with the map
entry, so the map afterwards holds the written sub-batch under `ns`. -/
def Put (b : UpdateMap) (ns coll key : GoString) (value : GoBytes)
    (version : Option version.Height) : UpdateMap :=
  let r := getOrCreateNsBatch b ns
  GoMap.set r.1 ns ⟨r.2.UpdateBatch.Put coll key value version⟩

/-- The method `UpdateMap.Delete`. -/
def Delete (b : UpdateMap) (ns coll key : GoString) (version : Option version.Height) : UpdateMap :=
  let r := getOrCreateNsBatch b ns
  GoMap.set r.1 ns ⟨r.2.UpdateBatch.Delete coll key version⟩

/-- The method `UpdateMap.Get`; it reads the map and writes nothing. -/
def Get (b : UpdateMap) (ns coll key : GoString) : Option statedb.VersionedValue :=
  match GoMap.get b ns with
  | none => none
  | some nsPvtBatch => nsPvtBatch.UpdateBatch.Get coll key

end UpdateMap

/-- The method `nsBatch.GetCollectionNames`. -/
def nsBatch.GetCollectionNames (nsb : nsBatch) : List GoString :=
  nsb.UpdateBatch.GetUpdatedNamespaces

namespace HashedUpdateBatch

/-- The method `HashedUpdateBatch.Contains`. -/
def Contains (h : HashedUpdateBatch) (ns coll : GoString) (keyHash : GoBytes) : Bool :=
  match GoMap.get h.UpdateMap ns with
  | none => false
  | some nsBatch => nsBatch.UpdateBatch.Exists coll keyHash.toGoString

/-- The method `HashedUpdateBatch.Put`: the key is a `[]byte` instead of a string. -/
def Put (h : HashedUpdateBatch) (ns coll : GoString) (key value : GoBytes)
    (version : Option version.Height) : HashedUpdateBatch :=
  ⟨h.UpdateMap.Put ns coll key.toGoString value version⟩

/-- The method `HashedUpdateBatch.Delete`: the key is a `[]byte` instead of a string. -/
def Delete (h : HashedUpdateBatch) (ns coll : GoString) (key : GoBytes)
    (version : Option version.Height) : HashedUpdateBatch :=
  ⟨h.UpdateMap.Delete ns coll key.toGoString version⟩

/-- The promoted method `Get` of the embedded `UpdateMap`. -/
def Get (h : HashedUpdateBatch) (ns coll key : GoString) : Option statedb.VersionedValue :=
  h.UpdateMap.Get ns coll key

end HashedUpdateBatch

namespace PvtUpdateBatch

/-- The promoted method `IsEmpty` of the embedded `UpdateMap`. -/
def IsEmpty (p : PvtUpdateBatch) : Bool := p.UpdateMap.IsEmpty

/-- The promoted method `Get` of the embedded `UpdateMap`. -/
def Get (p : PvtUpdateBatch) (ns coll key : GoString) : Option statedb.VersionedValue :=
  p.UpdateMap.Get ns coll key

end PvtUpdateBatch

/-- The promoted method `IsEmpty` of the `UpdateMap` embedded in a `HashedUpdateBatch`. -/
def HashedUpdateBatch.IsEmpty (h : HashedUpdateBatch) : Bool := h.UpdateMap.IsEmpty

/-- The promoted method `GetUpdatedNamespaces` of the `statedb.UpdateBatch` embedded in a
`PubUpdateBatch`. -/
def PubUpdateBatch.GetUpdatedNamespaces (p : PubUpdateBatch) : List GoString :=
  p.UpdateBatch.GetUpdatedNamespaces

/-! ### Call sequences -/

/-- A call on an `UpdateMap`. -/
inductive MapCall where
  | put (ns coll key : GoString) (value : GoBytes) (version : Option version.Height)
  | delete (ns coll key : GoString) (version : Option version.Height)
  | get (ns coll key : GoString)
  deriving DecidableEq, Repr

/-- Whether the call is a `Put` or a `Delete`. -/
def MapCall.isWrite : MapCall → Bool
  | .put .. => true
  | .delete .. => true
  | .get .. => false

/-- The namespace, collection and key a `Put` or a `Delete` writes; none for a `Get`. -/
def MapCall.target : MapCall → Option (GoString × GoString × GoString)
  | .put ns coll key _ _ => some (ns, coll, key)
  | .delete ns coll key _ => some (ns, coll, key)
  | .get _ _ _ => none

/-- The call is not a `Put` of a `nil` value. -/
def MapCall.nonNilValue : MapCall → Bool
  | .put _ _ _ value _ => value.isSome
  | .delete .. => true
  | .get .. => true

/-- The map after one call; `Get` returns its result and leaves the map as it is. -/
def MapCall.apply (b : UpdateMap) : MapCall → UpdateMap
  | .put ns coll key value version => b.Put ns coll key value version
  | .delete ns coll key version => b.Delete ns coll key version
  | .get _ _ _ => b

/-- The map after a sequence of calls, first call first. -/
def runMapCalls (b : UpdateMap) (calls : List MapCall) : UpdateMap :=
  calls.foldl MapCall.apply b

/-- A writing call on a `HashedUpdateBatch`. -/
inductive HashedCall where
  | put (ns coll : GoString) (key value : GoBytes) (version : Option version.Height)
  | delete (ns coll : GoString) (key : GoBytes) (version : Option version.Height)
  deriving DecidableEq, Repr

/-- The namespace, collection and key bytes a call writes. -/
def HashedCall.target : HashedCall → GoString × GoString × GoString
  | .put ns coll key _ _ => (ns, coll, key.toGoString)
  | .delete ns coll key _ => (ns, coll, key.toGoString)

/-- The namespace argument of the call. -/
def HashedCall.ns : HashedCall → GoString
  | .put ns _ _ _ _ => ns
  | .delete ns _ _ _ => ns

/-- The collection argument of the call. -/
def HashedCall.coll : HashedCall → GoString
  | .put _ coll _ _ _ => coll
  | .delete _ coll _ _ => coll

/-- The key argument of the call, the `[]byte` as it was passed. -/
def HashedCall.key : HashedCall → GoBytes
  | .put _ _ key _ _ => key
  | .delete _ _ key _ => key

/-- The batch after one call. -/
def HashedCall.apply (h : HashedUpdateBatch) : HashedCall → HashedUpdateBatch
  | .put ns coll key value version => h.Put ns coll key value version
  | .delete ns coll key version => h.Delete ns coll key version

/-- The batch after a sequence of calls, first call first. -/
def runHashedCalls (h : HashedUpdateBatch) (calls : List HashedCall) : HashedUpdateBatch :=
  calls.foldl HashedCall.apply h

/-! ## The transient store (`pvtrwstorage`)

Only the test file of this package is among the sources. The functions it calls
(`createCompositeKeyForPurgeIndex`, `splitCompositeKeyOfPurgeIndex`,
`createCompositeKeyForPRWSet`, `splitCompositeKeyOfPRWSet`, `Persist`,
`GetTxPrivateRWSetByTxid`, `Purge`, `GetMinEndorsementBlkHt`) keep the names and
argument orders of the test; their bodies follow the specification: heights are
fixed-width big-endian, string fields end at a delimiter byte and every byte of a
field that could collide with the delimiter is escaped. -/

/-- A byte sequence: a key or a value of the ordered store. -/
abbrev Bytes := List Byte

/-- Byte-lexicographic "less than" (`bytes.Compare(a, b) < 0`). -/
def bytesLt : Bytes → Bytes → Bool
  | _, [] => false
  | [], _ :: _ => true
  | a :: as, b :: bs => decide (a < b) || (decide (a = b) && bytesLt as bs)

/-- Modelled from the spec: the delimiter of the composite keys of `pvtrwstorage`, whose
codec is not among the sources; the byte that ends a string field. -/
def compositeKeySep : Byte := 0

/-- Modelled from the spec: the escape byte of the composite keys (codec not among the
sources); it introduces an escaped byte of a field. -/
def escapeByte : Byte := 1

/-- Modelled from the spec: the tag of the data range (codec not among the sources); the
first byte of every data key. -/
def prwsetPrefix : Byte := 0x50

/-- Modelled from the spec: the tag of the purge-index range (codec not among the
sources); the first byte of every purge-index key. -/
def purgeIndexPrefix : Byte := 0x49

/-- Modelled from the spec: the encoding of a string field of a composite key (codec not
among the sources), with every byte that could collide with the delimiter escaped. The bytes `0x00` and `0x01` become `0x01 0x01` and `0x01 0x02`; the
encoded field holds no delimiter byte. -/
def escapeField : GoString → Bytes
  | [] => []
  | b :: bs =>
    if b = compositeKeySep ∨ b = escapeByte then escapeByte :: (b + 1) :: escapeField bs
    else b :: escapeField bs

/-- Modelled from the spec: the decoding of a string field of a composite key (codec not
among the sources); the inverse of `escapeField`, total on all byte sequences. -/
def unescapeField : Bytes → GoString
  | [] => []
  | [b] => if b = escapeByte then [] else [b]
  | b :: c :: rest =>
    if b = escapeByte then (c - 1) :: unescapeField rest
    else b :: unescapeField (c :: rest)

/-- Modelled from the spec: the cut of a composite key at a delimiter (codec not among the
sources); the bytes before the first delimiter and the bytes after it. -/
def splitAtSep : Bytes → Bytes × Bytes
  | [] => ([], [])
  | b :: rest =>
    if b = compositeKeySep then ([], rest)
    else ((b :: (splitAtSep rest).1), (splitAtSep rest).2)

/-- The `n` low-order bytes of `x`, most significant first. -/
def bigEndian : Nat → Nat → Bytes
  | 0, _ => []
  | n + 1, x => bigEndian n (x / 256) ++ [⟨x % 256, Nat.mod_lt _ (by decide)⟩]

/-- Modelled from the spec: the height field of a composite key (codec not among the
sources); a `uint64` as a fixed-width, big-endian unsigned integer of eight bytes. -/
def encodeHeight (h : Nat) : Bytes := bigEndian 8 h

/-- Modelled from the spec: the decoding of the height field (codec not among the
sources); the number a big-endian byte sequence stands for. -/
def decodeHeight (bs : Bytes) : Nat := bs.foldl (fun acc b => acc * 256 + b.val) 0

/-- Modelled from the spec: the function `createCompositeKeyForPRWSet`, called by the test
and not among the sources. The data key: the transaction id comes first, then the endorser
id and the endorsement block height. -/
def createCompositeKeyForPRWSet (txid endorserid : GoString) (endorsementBlkHt : Nat) : Bytes :=
  prwsetPrefix :: (escapeField txid ++ compositeKeySep ::
    (escapeField endorserid ++ compositeKeySep :: encodeHeight endorsementBlkHt))

/-- Modelled from the spec: the function `createCompositeKeyForPurgeIndex`, called by the
test and not among the sources. The purge-index key: the endorsement block height comes
first, then the transaction id and the endorser id. -/
def createCompositeKeyForPurgeIndex (endorsementBlkHt : Nat) (txid endorserid : GoString) :
    Bytes :=
  purgeIndexPrefix :: (encodeHeight endorsementBlkHt ++
    (escapeField txid ++ compositeKeySep :: escapeField endorserid))

/-- Modelled from the spec: the function `splitCompositeKeyOfPRWSet`, called by the test
and not among the sources. The endorser id and the height of a data key (the transaction
id is known from the scan). -/
def splitCompositeKeyOfPRWSet (compositeKey : Bytes) : GoString × Nat :=
  let afterTxid := (splitAtSep (compositeKey.drop 1)).2
  let r := splitAtSep afterTxid
  (unescapeField r.1, decodeHeight r.2)

/-- Modelled from the spec: the function `splitCompositeKeyOfPurgeIndex`, called by the
test and not among the sources. The transaction id, the endorser id and the height of a
purge-index key. -/
def splitCompositeKeyOfPurgeIndex (compositeKey : Bytes) : GoString × GoString × Nat :=
  let body := compositeKey.drop 1
  let r := splitAtSep (body.drop 8)
  (unescapeField r.1, unescapeField r.2, decodeHeight (body.take 8))

/-- Triples ordered by numeric height first, then transaction id, then endorser id
(strings compare byte by byte, as Go strings do). -/
def tripleLt (a b : Nat × GoString × GoString) : Bool :=
  decide (a.1 < b.1) ||
    (decide (a.1 = b.1) &&
      (bytesLt a.2.1 b.2.1 || (decide (a.2.1 = b.2.1) && bytesLt a.2.2 b.2.2)))

/-! ### The ordered byte-keyed store -/

/-- Modelled from the spec: the ordered, byte-keyed store the transient store is built
on, an external collaborator that is not among the sources. The entries are kept in
ascending key order, each key once. -/
structure DBHandle where
  entries : List (Bytes × Bytes)
  deriving DecidableEq, Repr

/-- Modelled from the spec: the write of one key of the ordered store (not among the
sources); the entries after the write of `value` under `key`, in ascending key order. -/
def putEntry (key value : Bytes) : List (Bytes × Bytes) → List (Bytes × Bytes)
  | [] => [(key, value)]
  | (k, v) :: rest =>
    if bytesLt key k then (key, value) :: (k, v) :: rest
    else if key = k then (key, value) :: rest
    else (k, v) :: putEntry key value rest

namespace DBHandle

/-- Modelled from the spec: a point read of the ordered store (not among the sources). -/
def Get (db : DBHandle) (key : Bytes) : Option Bytes :=
  (db.entries.find? (fun e => decide (e.1 = key))).map (fun e => e.2)

/-- Modelled from the spec: the write of one key of the ordered store (not among the
sources); it replaces the value of a key that is there. -/
def Put (db : DBHandle) (key value : Bytes) : DBHandle := ⟨putEntry key value db.entries⟩

/-- Modelled from the spec: the removal of one key of the ordered store (not among the
sources). -/
def Delete (db : DBHandle) (key : Bytes) : DBHandle :=
  ⟨db.entries.filter (fun e => !decide (e.1 = key))⟩

/-- Modelled from the spec: ascending range iteration of the ordered store (not among the
sources) over the keys `k` with `startKey ≤ k < endKey`, drained into a list. -/
def GetIterator (db : DBHandle) (startKey endKey : Bytes) : List (Bytes × Bytes) :=
  db.entries.filter (fun e => !bytesLt e.1 startKey && bytesLt e.1 endKey)

end DBHandle

/-- Modelled from the spec: one write of an atomic batch of the ordered store (not among
the sources); a put of a value or the deletion of a key. -/
inductive BatchWrite where
  | put (key value : Bytes)
  | delete (key : Bytes)
  deriving DecidableEq, Repr

/-- Modelled from the spec: the ordered store (not among the sources) after one write of
a batch. -/
def BatchWrite.apply (db : DBHandle) : BatchWrite → DBHandle
  | .put key value => db.Put key value
  | .delete key => db.Delete key

/-- Modelled from the spec: an atomic batched write of the ordered store (not among the
sources); all writes of the batch are applied, in the order of the batch. -/
def DBHandle.WriteBatch (db : DBHandle) (batch : List BatchWrite) : DBHandle :=
  batch.foldl BatchWrite.apply db

/-! ### The store -/

/-- Modelled from the spec: the errors of the transient store (not among the sources);
`ErrTransientStoreEmpty` is the sentinel the test names. The ordered store of the model
never fails, so an engine error is never returned. -/
inductive StoreError where
  | ErrTransientStoreEmpty
  | EngineError
  deriving DecidableEq, Repr

/-- Modelled from the spec: the type `ledger.EndorserPrivateSimulationResults`, whose
declaration is not among the sources; the test names its three fields. -/
structure EndorserPrivateSimulationResults where
  EndorserId : GoString
  EndorsementBlockHeight : Nat
  PrivateSimulationResults : Bytes
  deriving DecidableEq, Repr

/-- Modelled from the spec: the transient store of `pvtrwstorage`, not among the sources;
it has no state beyond the key ranges of its ordered store. -/
structure Store where
  db : DBHandle
  deriving DecidableEq, Repr

/-- Modelled from the spec: a fresh transient store (`newTestTransientStoreEnv` of the
test, not among the sources), with nothing persisted. -/
def newStore : Store := ⟨⟨[]⟩⟩

namespace Store

/-- Modelled from the spec: the method `Persist`, called by the test and not among the
sources. It writes one data entry and one purge-index entry with an empty marker as a
single atomic batch. The value of the data entry is the payload; the endorser id and the
height of a record are read back from its key. -/
def Persist (s : Store) (txid endorserid : GoString) (endorsementBlkHt : Nat)
    (privateSimulationResults : Bytes) : Except StoreError Store :=
  .ok ⟨s.db.WriteBatch
    [.put (createCompositeKeyForPRWSet txid endorserid endorsementBlkHt)
        privateSimulationResults,
     .put (createCompositeKeyForPurgeIndex endorsementBlkHt txid endorserid) []]⟩

/-- Modelled from the spec: the bounds of the range scan of `GetTxPrivateRWSetByTxid` (not
among the sources); the first key and the exclusive end key of the data keys prefixed by
`txid`. -/
def txidRange (txid : GoString) : Bytes × Bytes :=
  (prwsetPrefix :: (escapeField txid ++ [compositeKeySep]),
   prwsetPrefix :: (escapeField txid ++ [compositeKeySep + 1]))

/-- Modelled from the spec: the method `GetTxPrivateRWSetByTxid`, called by the test and
not among the sources. It scans the data range restricted to the keys prefixed by `txid`;
the result is the sequence the iterator yields, in ascending key order. -/
def GetTxPrivateRWSetByTxid (s : Store) (txid : GoString) :
    Except StoreError (List EndorserPrivateSimulationResults) :=
  .ok ((s.db.GetIterator (txidRange txid).1 (txidRange txid).2).map fun e =>
    ⟨(splitCompositeKeyOfPRWSet e.1).1, (splitCompositeKeyOfPRWSet e.1).2, e.2⟩)

/-- Modelled from the spec: the deletions `Purge` (not among the sources) makes for one
purge-index key; the index entry and the data entry of the triple it decodes to. -/
def purgeWrites (purgeIndexKey : Bytes) : List BatchWrite :=
  let t := splitCompositeKeyOfPurgeIndex purgeIndexKey
  [.delete (createCompositeKeyForPRWSet t.1 t.2.1 t.2.2), .delete purgeIndexKey]

/-- Modelled from the spec: the batch of deletions of `Purge` (not among the sources); one
scan of the purge-index range, bounded above (exclusive) by the encoded key of the
threshold, and the deletions for every key found. -/
def purgeBatch (s : Store) (minEndorsementBlkHtToRetain : Nat) : List BatchWrite :=
  (s.db.GetIterator [purgeIndexPrefix]
    (purgeIndexPrefix :: encodeHeight minEndorsementBlkHtToRetain)).flatMap
      fun e => purgeWrites e.1

/-- Modelled from the spec: the method `Purge`, called by the test and not among the
sources. It scans the purge-index range below the encoded key of `minHeightToRetain` and
deletes every index entry found and its data entry, as one atomic batch. -/
def Purge (s : Store) (minEndorsementBlkHtToRetain : Nat) : Except StoreError Store :=
  .ok ⟨s.db.WriteBatch (s.purgeBatch minEndorsementBlkHtToRetain)⟩

/-- Modelled from the spec: the method `GetMinEndorsementBlkHt`, called by the test and not
among the sources. It reads the first key of the purge-index range and decodes its height;
it fails with `ErrTransientStoreEmpty` when the range is empty. -/
def GetMinEndorsementBlkHt (s : Store) : Except StoreError Nat :=
  match s.db.GetIterator [purgeIndexPrefix] [purgeIndexPrefix + 1] with
  | [] => .error .ErrTransientStoreEmpty
  | e :: _ => .ok (splitCompositeKeyOfPurgeIndex e.1).2.2

/-- The store holds the record: its data entry is there, with this payload. -/
def holdsRecord (s : Store) (txid endorserid : GoString) (endorsementBlkHt : Nat)
    (payload : Bytes) : Prop :=
  s.db.Get (createCompositeKeyForPRWSet txid endorserid endorsementBlkHt) = some payload

/-- The store holds the purge-index entry of the triple. -/
def holdsIndex (s : Store) (txid endorserid : GoString) (endorsementBlkHt : Nat) : Prop :=
  s.db.Get (createCompositeKeyForPurgeIndex endorsementBlkHt txid endorserid) = some []

end Store

/-- The entries of the store are in strictly ascending key order. -/
def DBHandle.Sorted (db : DBHandle) : Prop :=
  db.entries.Pairwise (fun a b => bytesLt a.1 b.1 = true)

/-- The two key ranges of the store agree: the entries are in ascending key order, every
entry is a data entry or a purge-index entry of a triple with a `uint64` height, and each
of the two is there with the other. -/
def Store.Consistent (s : Store) : Prop :=
  s.db.Sorted ∧
  ∀ k v, s.db.Get k = some v →
    (∃ t e h, h < 2 ^ 64 ∧ k = createCompositeKeyForPRWSet t e h ∧
      s.db.Get (createCompositeKeyForPurgeIndex h t e) = some []) ∨
    (∃ t e h, h < 2 ^ 64 ∧ k = createCompositeKeyForPurgeIndex h t e ∧ v = [] ∧
      ∃ p, s.db.Get (createCompositeKeyForPRWSet t e h) = some p)

/-- The store holds exactly the records of a list, whose heights are `uint64`. -/
def Store.Refines (s : Store) (recs : List (GoString × GoString × Nat × Bytes)) : Prop :=
  s.Consistent ∧ (∀ r ∈ recs, r.2.2.1 < 2 ^ 64) ∧
  ∀ t e h p, h < 2 ^ 64 → (s.holdsRecord t e h p ↔ (t, e, h, p) ∈ recs)

/-- A state-changing call on the transient store. -/
inductive StoreCall where
  | persist (txid endorserid : GoString) (endorsementBlkHt : Nat) (payload : Bytes)
  | purge (minEndorsementBlkHtToRetain : Nat)
  deriving DecidableEq, Repr

/-- The numeric argument of the call is a `uint64`. -/
def StoreCall.inRange : StoreCall → Bool
  | .persist _ _ h _ => decide (h < 2 ^ 64)
  | .purge m => decide (m < 2 ^ 64)

/-- The result of one call. -/
def StoreCall.apply (s : Store) : StoreCall → Except StoreError Store
  | .persist txid endorserid h payload => s.Persist txid endorserid h payload
  | .purge m => s.Purge m

/-- The store after a sequence of calls, first call first; the first error, if any. -/
def runStoreCalls : Store → List StoreCall → Except StoreError Store
  | s, [] => .ok s
  | s, c :: calls =>
    match c.apply s with
    | .ok s' => runStoreCalls s' calls
    | .error e => .error e

/-- A record as the specification words it: transaction id, endorser id, endorsement
block height and payload. -/
abbrev SpecRecord := GoString × GoString × Nat × Bytes

/-- The specification of the calls: `Persist` adds a record, the last write winning on an
identical (txId, endorserId, height); `Purge` removes the records below the threshold. -/
def SpecCall : List SpecRecord → StoreCall → List SpecRecord
  | recs, .persist txid endorserid h payload =>
    recs.filter (fun r => !decide ((r.1, r.2.1, r.2.2.1) = (txid, endorserid, h)))
      ++ [(txid, endorserid, h, payload)]
  | recs, .purge m => recs.filter (fun r => decide (m ≤ r.2.2.1))

/-- The records persisted and not since purged, after a sequence of calls. -/
def specRecords (calls : List StoreCall) : List SpecRecord :=
  calls.foldl SpecCall []

/-! ### The data of the tests -/

/-- The transaction id "txid-1" of the tests. -/
def testTxid : GoString := [116, 120, 105, 100, 45, 49]

/-- The endorser id "endorser" followed by one more byte, as in the tests. -/
def testEndorser (last : Byte) : GoString := [101, 110, 100, 111, 114, 115, 101, 114, last]

/-- The payload "results" of the tests. -/
def testResults : Bytes := [114, 101, 115, 117, 108, 116, 115]

/-- The two `Persist` calls of `TestTransientStorePersistAndRetrieve`. -/
def testPersistCalls : List StoreCall :=
  [.persist testTxid (testEndorser 48) 10 testResults,
   .persist testTxid (testEndorser 49) 10 testResults]

/-- The five `Persist` calls of `TestTransientStorePurge`. -/
def testPurgeCalls : List StoreCall :=
  [.persist testTxid (testEndorser 48) 10 testResults,
   .persist testTxid (testEndorser 49) 11 testResults,
   .persist testTxid (testEndorser 50) 12 testResults,
   .persist testTxid (testEndorser 51) 12 testResults,
   .persist testTxid (testEndorser 52) 13 testResults]

/-! ## Lemmas on Go maps -/

namespace GoMap

variable {κ ν : Type} [DecidableEq κ]

theorem get_set_self (m : GoMap κ ν) (k : κ) (v : ν) : get (set m k v) k = some v := by
  induction m with
  | nil => simp [set, get]
  | cons e m ih =>
    obtain ⟨k', v'⟩ := e
    by_cases hk : k' = k
    · simp [set, get, hk]
    · simp [set, get, hk, ih]

theorem get_set_other (m : GoMap κ ν) (k k' : κ) (v : ν) (h : k ≠ k') :
    get (set m k v) k' = get m k' := by
  induction m with
  | nil => simp [set, get, h]
  | cons e m ih =>
    obtain ⟨k₀, v₀⟩ := e
    by_cases hk : k₀ = k
    · subst hk
      simp [set, get, h]
    · by_cases hk' : k₀ = k'
      · subst hk'
        simp [set, get, hk]
      · simp [set, get, hk, hk', ih]

theorem set_ne_nil (m : GoMap κ ν) (k : κ) (v : ν) : set m k v ≠ [] := by
  cases m with
  | nil => simp [set]
  | cons e m =>
    obtain ⟨k', v'⟩ := e
    by_cases hk : k' = k <;> simp [set, hk]

end GoMap

/-! ## Lemmas on byte order -/

theorem bytesLt_nil_right (a : Bytes) : bytesLt a [] = false := by
  cases a <;> rfl

theorem bytesLt_cons (a b : Byte) (as bs : Bytes) :
    bytesLt (a :: as) (b :: bs) = (decide (a < b) || (decide (a = b) && bytesLt as bs)) := by
  simp [bytesLt]

theorem bytesLt_irrefl (a : Bytes) : bytesLt a a = false := by
  induction a with
  | nil => rfl
  | cons x xs ih => simp [bytesLt_cons, ih]

theorem bytesLt_trans {a b c : Bytes} (h1 : bytesLt a b = true) (h2 : bytesLt b c = true) :
    bytesLt a c = true := by
  induction a generalizing b c with
  | nil =>
    cases c with
    | nil => simp [bytesLt_nil_right] at h2
    | cons z zs => rfl
  | cons x xs ih =>
    cases b with
    | nil => simp [bytesLt_nil_right] at h1
    | cons y ys =>
      cases c with
      | nil => simp [bytesLt_nil_right] at h2
      | cons z zs =>
        simp only [bytesLt_cons, Bool.or_eq_true, Bool.and_eq_true, decide_eq_true_eq] at *
        rcases h1 with h1 | ⟨h1, h1'⟩ <;> rcases h2 with h2 | ⟨h2, h2'⟩
        · exact Or.inl (lt_trans h1 h2)
        · exact Or.inl (h2 ▸ h1)
        · exact Or.inl (h1 ▸ h2)
        · exact Or.inr ⟨h1.trans h2, ih h1' h2'⟩

theorem bytesLt_asymm {a b : Bytes} (h : bytesLt a b = true) : bytesLt b a = false := by
  cases hba : bytesLt b a with
  | false => rfl
  | true =>
    have := bytesLt_trans h hba
    rw [bytesLt_irrefl] at this
    exact absurd this (by decide)

theorem bytesLt_connex {a b : Bytes} (h : a ≠ b) : bytesLt a b = true ∨ bytesLt b a = true := by
  induction a generalizing b with
  | nil =>
    cases b with
    | nil => exact absurd rfl h
    | cons y ys => exact Or.inl rfl
  | cons x xs ih =>
    cases b with
    | nil => exact Or.inr rfl
    | cons y ys =>
      simp only [bytesLt_cons, Bool.or_eq_true, Bool.and_eq_true, decide_eq_true_eq]
      rcases lt_trichotomy x y with hxy | hxy | hxy
      · exact Or.inl (Or.inl hxy)
      · subst hxy
        have hne : xs ≠ ys := fun e => h (by rw [e])
        rcases ih hne with h' | h'
        · exact Or.inl (Or.inr ⟨rfl, h'⟩)
        · exact Or.inr (Or.inr ⟨rfl, h'⟩)
      · exact Or.inr (Or.inl hxy)

theorem bytesLt_append_left (p x y : Bytes) : bytesLt (p ++ x) (p ++ y) = bytesLt x y := by
  induction p with
  | nil => rfl
  | cons a p ih => simp [bytesLt_cons, ih]

theorem lex_step (da ea l e w : Bool) :
    (da || (ea && (l || (e && w)))) = ((da || (ea && l)) || ((ea && e) && w)) := by
  cases da <;> cases ea <;> cases l <;> cases e <;> cases w <;> rfl

theorem decide_cons_eq (a b : Byte) (x y : Bytes) :
    decide (a :: x = b :: y) = (decide (a = b) && decide (x = y)) := by
  simp only [List.cons.injEq, Bool.decide_and]

/-- Two byte sequences of equal length followed by tails compare by the sequences first,
then by the tails. -/
theorem bytesLt_append_of_length_eq (x y u v : Bytes) (h : x.length = y.length) :
    bytesLt (x ++ u) (y ++ v) = (bytesLt x y || (decide (x = y) && bytesLt u v)) := by
  induction x generalizing y with
  | nil =>
    cases y with
    | nil => simp [bytesLt_irrefl]
    | cons b y => simp at h
  | cons a x ih =>
    cases y with
    | nil => simp at h
    | cons b y =>
      have hlen : x.length = y.length := by simpa using h
      simp only [List.cons_append, bytesLt_cons, ih y hlen, decide_cons_eq]
      exact lex_step _ _ _ _ _

/-! ## Lemmas on the height encoding -/

theorem bigEndian_length (n x : Nat) : (bigEndian n x).length = n := by
  induction n generalizing x with
  | zero => rfl
  | succ n ih => simp [bigEndian, ih]

theorem decodeHeight_append_singleton (l : Bytes) (b : Byte) :
    decodeHeight (l ++ [b]) = decodeHeight l * 256 + b.val := by
  simp [decodeHeight, List.foldl_append]

theorem decodeHeight_bigEndian (n x : Nat) (h : x < 256 ^ n) :
    decodeHeight (bigEndian n x) = x := by
  induction n generalizing x with
  | zero =>
    have : x = 0 := by simpa using h
    subst this
    rfl
  | succ n ih =>
    have hdiv : x / 256 < 256 ^ n := by
      apply Nat.div_lt_of_lt_mul
      rw [pow_succ] at h
      rw [Nat.mul_comm]
      exact h
    rw [bigEndian, decodeHeight_append_singleton, ih _ hdiv]
    simp only
    omega

theorem bigEndian_injective (n x y : Nat) (hx : x < 256 ^ n) (hy : y < 256 ^ n)
    (h : bigEndian n x = bigEndian n y) : x = y := by
  rw [← decodeHeight_bigEndian n x hx, ← decodeHeight_bigEndian n y hy, h]

theorem bytesLt_bigEndian (n x y : Nat) (hx : x < 256 ^ n) (hy : y < 256 ^ n) :
    bytesLt (bigEndian n x) (bigEndian n y) = decide (x < y) := by
  induction n generalizing x y with
  | zero =>
    have hx0 : x = 0 := by simpa using hx
    have hy0 : y = 0 := by simpa using hy
    subst hx0 hy0
    rfl
  | succ n ih =>
    have hdx : x / 256 < 256 ^ n := by
      apply Nat.div_lt_of_lt_mul
      rw [pow_succ] at hx
      rw [Nat.mul_comm]
      exact hx
    have hdy : y / 256 < 256 ^ n := by
      apply Nat.div_lt_of_lt_mul
      rw [pow_succ] at hy
      rw [Nat.mul_comm]
      exact hy
    rw [bigEndian, bigEndian,
      bytesLt_append_of_length_eq _ _ _ _ (by rw [bigEndian_length, bigEndian_length]),
      ih _ _ hdx hdy]
    have hinj : (bigEndian n (x / 256) = bigEndian n (y / 256)) ↔ x / 256 = y / 256 :=
      ⟨bigEndian_injective n _ _ hdx hdy, fun e => by rw [e]⟩
    simp only [bytesLt_cons, bytesLt_nil_right, Bool.and_false, Bool.or_false, hinj]
    rw [Bool.eq_iff_iff]
    simp only [Bool.or_eq_true, Bool.and_eq_true, decide_eq_true_eq, Fin.lt_def]
    omega

theorem encodeHeight_length (h : Nat) : (encodeHeight h).length = 8 :=
  bigEndian_length 8 h

theorem decodeHeight_encodeHeight (h : Nat) (hh : h < 2 ^ 64) :
    decodeHeight (encodeHeight h) = h :=
  decodeHeight_bigEndian 8 h (by simpa using hh)

theorem encodeHeight_injective (h1 h2 : Nat) (hh1 : h1 < 2 ^ 64) (hh2 : h2 < 2 ^ 64)
    (h : encodeHeight h1 = encodeHeight h2) : h1 = h2 :=
  bigEndian_injective 8 h1 h2 (by simpa using hh1) (by simpa using hh2) h

theorem bytesLt_encodeHeight (h1 h2 : Nat) (hh1 : h1 < 2 ^ 64) (hh2 : h2 < 2 ^ 64) :
    bytesLt (encodeHeight h1) (encodeHeight h2) = decide (h1 < h2) :=
  bytesLt_bigEndian 8 h1 h2 (by simpa using hh1) (by simpa using hh2)

/-! ## Lemmas on escaped fields -/

theorem escapeField_nil : escapeField [] = [] := rfl

theorem escapeField_cons_special (b : Byte) (bs : GoString) (h : b = 0 ∨ b = 1) :
    escapeField (b :: bs) = 1 :: (b + 1) :: escapeField bs := by
  simp [escapeField, compositeKeySep, escapeByte, h]

theorem escapeField_cons_plain (b : Byte) (bs : GoString) (h0 : b ≠ 0) (h1 : b ≠ 1) :
    escapeField (b :: bs) = b :: escapeField bs := by
  simp [escapeField, compositeKeySep, escapeByte, h0, h1]

theorem escapeField_no_sep (s : GoString) : ∀ b ∈ escapeField s, b ≠ compositeKeySep := by
  induction s with
  | nil => simp [escapeField]
  | cons a s ih =>
    by_cases ha : a = 0 ∨ a = 1
    · rw [escapeField_cons_special a s ha]
      intro b hb
      simp only [List.mem_cons] at hb
      rcases hb with hb | hb | hb
      · subst hb; decide
      · subst hb
        rcases ha with ha | ha <;> subst ha <;> decide
      · exact ih b hb
    · have h0 : a ≠ 0 := fun e => ha (Or.inl e)
      have h1 : a ≠ 1 := fun e => ha (Or.inr e)
      rw [escapeField_cons_plain a s h0 h1]
      intro b hb
      simp only [List.mem_cons] at hb
      rcases hb with hb | hb
      · subst hb; exact h0
      · exact ih b hb

theorem splitAtSep_append (x rest : Bytes) (hx : ∀ b ∈ x, b ≠ compositeKeySep) :
    splitAtSep (x ++ compositeKeySep :: rest) = (x, rest) := by
  induction x with
  | nil => simp [splitAtSep]
  | cons a x ih =>
    have ha : a ≠ compositeKeySep := hx a (List.mem_cons_self a x)
    have hx' : ∀ b ∈ x, b ≠ compositeKeySep := fun b hb => hx b (List.mem_cons_of_mem a hb)
    simp [splitAtSep, ha, ih hx']

theorem splitAtSep_escapeField (s : GoString) (rest : Bytes) :
    splitAtSep (escapeField s ++ compositeKeySep :: rest) = (escapeField s, rest) :=
  splitAtSep_append _ _ (escapeField_no_sep s)

theorem unescapeField_cons_escaped (c : Byte) (rest : Bytes) :
    unescapeField (1 :: c :: rest) = (c - 1) :: unescapeField rest := by
  simp [unescapeField, escapeByte]

theorem unescapeField_cons_plain (b : Byte) (rest : Bytes) (h1 : b ≠ 1) :
    unescapeField (b :: rest) = b :: unescapeField rest := by
  cases rest with
  | nil => simp [unescapeField, escapeByte, h1]
  | cons c rest => simp [unescapeField, escapeByte, h1]

theorem unescapeField_escapeField (s : GoString) : unescapeField (escapeField s) = s := by
  induction s with
  | nil => rfl
  | cons a s ih =>
    by_cases ha : a = 0 ∨ a = 1
    · rw [escapeField_cons_special a s ha, unescapeField_cons_escaped, ih]
      have hsub : a + 1 - 1 = a := by
        rcases ha with ha | ha <;> subst ha <;> decide
      rw [hsub]
    · have h0 : a ≠ 0 := fun e => ha (Or.inl e)
      have h1 : a ≠ 1 := fun e => ha (Or.inr e)
      rw [escapeField_cons_plain a s h0 h1, unescapeField_cons_plain a _ h1, ih]

theorem escapeField_injective (s t : GoString) (h : escapeField s = escapeField t) : s = t := by
  rw [← unescapeField_escapeField s, ← unescapeField_escapeField t, h]

/-- The first byte of a non-empty escaped field is not the delimiter. -/
theorem escapeField_head_pos (a : Byte) (s : GoString) :
    ∃ c rest, escapeField (a :: s) = c :: rest ∧ (0 : Byte) < c := by
  by_cases ha : a = 0 ∨ a = 1
  · exact ⟨1, _, escapeField_cons_special a s ha, by decide⟩
  · have h0 : a ≠ 0 := fun e => ha (Or.inl e)
    have h1 : a ≠ 1 := fun e => ha (Or.inr e)
    refine ⟨a, _, escapeField_cons_plain a s h0 h1, ?_⟩
    rw [Fin.lt_def]
    have : a.val ≠ 0 := fun e => h0 (Fin.ext e)
    simp only [Fin.val_zero]
    omega

/-- One escaped byte followed by a tail compares as the byte, then the tail. -/
theorem bytesLt_escapeField_cons (a b : Byte) (s t : GoString) (X Y : Bytes) :
    bytesLt (escapeField (a :: s) ++ X) (escapeField (b :: t) ++ Y)
      = (decide (a < b) ||
          (decide (a = b) && bytesLt (escapeField s ++ X) (escapeField t ++ Y))) := by
  by_cases ha : a = 0 ∨ a = 1
  · by_cases hb : b = 0 ∨ b = 1
    · rw [escapeField_cons_special a s ha, escapeField_cons_special b t hb]
      rcases ha with ha | ha <;> rcases hb with hb | hb <;> subst ha <;> subst hb <;>
        simp [bytesLt_cons]
    · have h0 : b ≠ 0 := fun e => hb (Or.inl e)
      have h1 : b ≠ 1 := fun e => hb (Or.inr e)
      rw [escapeField_cons_special a s ha, escapeField_cons_plain b t h0 h1]
      have hb0 : b.val ≠ 0 := fun e => h0 (Fin.ext e)
      have hb1 : b.val ≠ 1 := fun e => h1 (Fin.ext e)
      have h1b : (1 : Byte) < b := by
        rw [Fin.lt_def]
        simp only [Fin.val_one]
        omega
      have hab : a < b := by
        rw [Fin.lt_def]
        rcases ha with ha | ha <;> subst ha <;> simp <;> omega
      simp [bytesLt_cons, h1b, hab]
  · have h0 : a ≠ 0 := fun e => ha (Or.inl e)
    have h1 : a ≠ 1 := fun e => ha (Or.inr e)
    have ha0 : a.val ≠ 0 := fun e => h0 (Fin.ext e)
    have ha1 : a.val ≠ 1 := fun e => h1 (Fin.ext e)
    by_cases hb : b = 0 ∨ b = 1
    · rw [escapeField_cons_plain a s h0 h1, escapeField_cons_special b t hb]
      have hlt : ¬ a < 1 := by
        rw [Fin.lt_def]
        simp only [Fin.val_one]
        omega
      have hab : ¬ a < b := by
        rw [Fin.lt_def]
        rcases hb with hb | hb
        · subst hb
          simp
        · subst hb
          simp only [Fin.val_one]
          omega
      have hne : ¬ a = b := by
        rcases hb with hb | hb
        · subst hb; exact h0
        · subst hb; exact h1
      simp [bytesLt_cons, hlt, hab, hne, h1]
    · have hb0 : b ≠ 0 := fun e => hb (Or.inl e)
      have hb1 : b ≠ 1 := fun e => hb (Or.inr e)
      rw [escapeField_cons_plain a s h0 h1, escapeField_cons_plain b t hb0 hb1]
      simp [bytesLt_cons]

/-- Escaped fields followed by tails that are empty or start with the delimiter compare
as the fields themselves, then the tails. -/
theorem bytesLt_escapeField (s t : GoString) (u v : Bytes)
    (hu : ∀ x, u.head? = some x → x = compositeKeySep)
    (hv : ∀ x, v.head? = some x → x = compositeKeySep) :
    bytesLt (escapeField s ++ u) (escapeField t ++ v)
      = (bytesLt s t || (decide (s = t) && bytesLt u v)) := by
  induction s generalizing t with
  | nil =>
    cases t with
    | nil => simp [escapeField, bytesLt_irrefl]
    | cons b t =>
      obtain ⟨c, rest, hc, hpos⟩ := escapeField_head_pos b t
      rw [hc]
      cases u with
      | nil => simp [escapeField, bytesLt]
      | cons x u =>
        have hx : x = compositeKeySep := hu x rfl
        subst hx
        simp [escapeField, bytesLt, compositeKeySep, hpos]
  | cons a s ih =>
    cases t with
    | nil =>
      obtain ⟨c, rest, hc, hpos⟩ := escapeField_head_pos a s
      rw [hc]
      cases v with
      | nil => simp [escapeField, bytesLt_nil_right]
      | cons y v =>
        have hy : y = compositeKeySep := hv y rfl
        subst hy
        have h1 : ¬ c < 0 := by
          rw [Fin.lt_def]
          simp
        have h2 : ¬ c = 0 := fun e => by
          rw [e] at hpos
          exact absurd hpos (by decide)
        simp [escapeField, bytesLt_cons, bytesLt_nil_right, compositeKeySep, h1, h2]
    | cons b t =>
      rw [bytesLt_escapeField_cons, ih t, bytesLt_cons, decide_cons_eq]
      exact lex_step _ _ _ _ _

theorem bytesLt_escapeField_last (s t : GoString) :
    bytesLt (escapeField s) (escapeField t) = bytesLt s t := by
  have := bytesLt_escapeField s t [] [] (by simp) (by simp)
  simpa [bytesLt_irrefl] using this

/-! ## Lemmas on composite keys -/

theorem splitCompositeKeyOfPurgeIndex_create (h : Nat) (txid eid : GoString)
    (hh : h < 2 ^ 64) :
    splitCompositeKeyOfPurgeIndex (createCompositeKeyForPurgeIndex h txid eid)
      = (txid, eid, h) := by
  have hlen := encodeHeight_length h
  simp only [splitCompositeKeyOfPurgeIndex, createCompositeKeyForPurgeIndex, List.drop_succ_cons,
    List.drop_zero]
  rw [List.drop_left' hlen, List.take_left' hlen, splitAtSep_escapeField]
  simp only [unescapeField_escapeField, decodeHeight_encodeHeight h hh]

theorem splitCompositeKeyOfPRWSet_create (txid eid : GoString) (h : Nat) (hh : h < 2 ^ 64) :
    splitCompositeKeyOfPRWSet (createCompositeKeyForPRWSet txid eid h) = (eid, h) := by
  simp only [splitCompositeKeyOfPRWSet, createCompositeKeyForPRWSet, List.drop_succ_cons,
    List.drop_zero]
  rw [splitAtSep_escapeField]
  simp only
  rw [splitAtSep_escapeField]
  simp only [unescapeField_escapeField, decodeHeight_encodeHeight h hh]

theorem createCompositeKeyForPurgeIndex_injective (h1 h2 : Nat) (t1 e1 t2 e2 : GoString)
    (hh1 : h1 < 2 ^ 64) (hh2 : h2 < 2 ^ 64)
    (h : createCompositeKeyForPurgeIndex h1 t1 e1 = createCompositeKeyForPurgeIndex h2 t2 e2) :
    h1 = h2 ∧ t1 = t2 ∧ e1 = e2 := by
  have := congrArg splitCompositeKeyOfPurgeIndex h
  rw [splitCompositeKeyOfPurgeIndex_create h1 t1 e1 hh1,
    splitCompositeKeyOfPurgeIndex_create h2 t2 e2 hh2] at this
  simp only [Prod.mk.injEq] at this
  exact ⟨this.2.2, this.1, this.2.1⟩

theorem createCompositeKeyForPRWSet_injective (h1 h2 : Nat) (t1 e1 t2 e2 : GoString)
    (hh1 : h1 < 2 ^ 64) (hh2 : h2 < 2 ^ 64)
    (h : createCompositeKeyForPRWSet t1 e1 h1 = createCompositeKeyForPRWSet t2 e2 h2) :
    t1 = t2 ∧ e1 = e2 ∧ h1 = h2 := by
  have hs := congrArg splitCompositeKeyOfPRWSet h
  rw [splitCompositeKeyOfPRWSet_create t1 e1 h1 hh1,
    splitCompositeKeyOfPRWSet_create t2 e2 h2 hh2] at hs
  simp only [Prod.mk.injEq] at hs
  have ht := congrArg (fun k => (splitAtSep (k.drop 1)).1) h
  simp only [createCompositeKeyForPRWSet, List.drop_succ_cons, List.drop_zero,
    splitAtSep_escapeField] at ht
  exact ⟨escapeField_injective _ _ ht, hs.1, hs.2⟩

theorem bytesLt_createCompositeKeyForPurgeIndex (h1 h2 : Nat) (t1 e1 t2 e2 : GoString)
    (hh1 : h1 < 2 ^ 64) (hh2 : h2 < 2 ^ 64) :
    bytesLt (createCompositeKeyForPurgeIndex h1 t1 e1) (createCompositeKeyForPurgeIndex h2 t2 e2)
      = tripleLt (h1, t1, e1) (h2, t2, e2) := by
  have hdec : decide (encodeHeight h1 = encodeHeight h2) = decide (h1 = h2) :=
    decide_eq_decide.mpr ⟨encodeHeight_injective h1 h2 hh1 hh2, fun e => by rw [e]⟩
  simp only [createCompositeKeyForPurgeIndex, tripleLt, bytesLt_cons, lt_irrefl, decide_False,
    decide_True, Bool.true_and, Bool.false_or]
  rw [bytesLt_append_of_length_eq _ _ _ _
      (by rw [encodeHeight_length, encodeHeight_length]),
    bytesLt_encodeHeight h1 h2 hh1 hh2, hdec,
    bytesLt_escapeField t1 t2 _ _ (by simp) (by simp)]
  simp only [bytesLt_cons, lt_irrefl, decide_False, decide_True, Bool.true_and, Bool.false_or,
    bytesLt_escapeField_last]

/-! ## Lemmas on the ordered store -/

theorem mem_putEntry (key value : Bytes) (l : List (Bytes × Bytes)) (e : Bytes × Bytes)
    (h : e ∈ putEntry key value l) : e = (key, value) ∨ e ∈ l := by
  induction l with
  | nil => simpa [putEntry] using h
  | cons a l ih =>
    obtain ⟨k, v⟩ := a
    unfold putEntry at h
    split_ifs at h with h1 h2
    · simp only [List.mem_cons] at h ⊢
      tauto
    · simp only [List.mem_cons] at h ⊢
      tauto
    · simp only [List.mem_cons] at h ⊢
      rcases h with h | h
      · exact Or.inr (Or.inl h)
      · rcases ih h with h' | h'
        · exact Or.inl h'
        · exact Or.inr (Or.inr h')

theorem sorted_putEntry (key value : Bytes) (l : List (Bytes × Bytes))
    (hs : l.Pairwise (fun a b => bytesLt a.1 b.1 = true)) :
    (putEntry key value l).Pairwise (fun a b => bytesLt a.1 b.1 = true) := by
  induction l with
  | nil => simp [putEntry]
  | cons a l ih =>
    obtain ⟨k, v⟩ := a
    rw [List.pairwise_cons] at hs
    unfold putEntry
    split_ifs with h1 h2
    · rw [List.pairwise_cons]
      refine ⟨?_, List.pairwise_cons.mpr hs⟩
      intro e he
      simp only [List.mem_cons] at he
      rcases he with he | he
      · rw [he]; exact h1
      · exact bytesLt_trans h1 (hs.1 e he)
    · rw [List.pairwise_cons]
      refine ⟨?_, hs.2⟩
      intro e he
      rw [h2]
      exact hs.1 e he
    · rw [List.pairwise_cons]
      refine ⟨?_, ih hs.2⟩
      intro e he
      rcases mem_putEntry key value l e he with he | he
      · rw [he]
        rcases bytesLt_connex h2 with h | h
        · exact absurd h h1
        · exact h
      · exact hs.1 e he

namespace DBHandle

theorem Get_after_Put (db : DBHandle) (key value k : Bytes) :
    (db.Put key value).Get k = if key = k then some value else db.Get k := by
  obtain ⟨l⟩ := db
  simp only [Get, Put]
  induction l with
  | nil =>
    by_cases hk : key = k <;> simp [putEntry, List.find?_cons, hk]
  | cons a l ih =>
    obtain ⟨k₀, v₀⟩ := a
    unfold putEntry
    split_ifs with h1 h2 h3 h4 h5
    all_goals simp_all [List.find?_cons]
    all_goals
      by_cases h6 : k₀ = k
      · simp_all
      · simp_all

theorem Get_after_Delete (db : DBHandle) (key k : Bytes) :
    (db.Delete key).Get k = if key = k then none else db.Get k := by
  obtain ⟨l⟩ := db
  simp only [Get, Delete]
  induction l with
  | nil => simp
  | cons a l ih =>
    obtain ⟨k₀, v₀⟩ := a
    by_cases h1 : k₀ = key <;> by_cases h2 : k₀ = k <;> by_cases h3 : key = k <;>
      simp_all [List.filter_cons, List.find?_cons]

theorem Sorted_Put (db : DBHandle) (key value : Bytes) (hs : db.Sorted) :
    (db.Put key value).Sorted :=
  sorted_putEntry key value db.entries hs

theorem Sorted_Delete (db : DBHandle) (key : Bytes) (hs : db.Sorted) : (db.Delete key).Sorted :=
  List.Pairwise.filter _ hs

theorem Sorted_WriteBatch (batch : List BatchWrite) (db : DBHandle) (hs : db.Sorted) :
    (db.WriteBatch batch).Sorted := by
  induction batch generalizing db with
  | nil => exact hs
  | cons w batch ih =>
    have hstep : db.WriteBatch (w :: batch) = (w.apply db).WriteBatch batch := rfl
    rw [hstep]
    apply ih
    cases w with
    | put key value => exact Sorted_Put db key value hs
    | delete key => exact Sorted_Delete db key hs

theorem mem_of_Get (db : DBHandle) (k v : Bytes) (h : db.Get k = some v) :
    (k, v) ∈ db.entries := by
  simp only [Get, Option.map_eq_some'] at h
  obtain ⟨e, he, hv⟩ := h
  have hk := List.find?_some he
  have hm := List.mem_of_find?_eq_some he
  simp only [decide_eq_true_eq] at hk
  rw [← hk, ← hv]
  exact hm

theorem Get_of_mem (db : DBHandle) (hs : db.Sorted) (k v : Bytes) (h : (k, v) ∈ db.entries) :
    db.Get k = some v := by
  obtain ⟨l⟩ := db
  simp only [Sorted] at hs
  simp only [Get]
  simp only at h
  induction l with
  | nil => simp at h
  | cons a l ih =>
    obtain ⟨k₀, v₀⟩ := a
    rw [List.pairwise_cons] at hs
    simp only [List.mem_cons, Prod.mk.injEq] at h
    rcases h with h | h
    · simp [List.find?_cons, h.1, h.2]
    · have hlt := hs.1 (k, v) h
      have hne : k₀ ≠ k := by
        intro e
        rw [e, bytesLt_irrefl] at hlt
        exact absurd hlt (by decide)
      simp only [List.find?_cons, hne, decide_False]
      exact ih hs.2 h

theorem mem_GetIterator (db : DBHandle) (startKey endKey : Bytes) (e : Bytes × Bytes) :
    e ∈ db.GetIterator startKey endKey
      ↔ e ∈ db.entries ∧ bytesLt e.1 startKey = false ∧ bytesLt e.1 endKey = true := by
  simp [GetIterator, List.mem_filter]

/-- What a point read returns after a batch of deletions. -/
theorem Get_WriteBatch_deletes (batch : List BatchWrite) (db : DBHandle) (k : Bytes)
    (hdel : ∀ w ∈ batch, ∃ key, w = BatchWrite.delete key) :
    (db.WriteBatch batch).Get k = if BatchWrite.delete k ∈ batch then none else db.Get k := by
  induction batch generalizing db with
  | nil => simp [WriteBatch]
  | cons w batch ih =>
    have hstep : db.WriteBatch (w :: batch) = (w.apply db).WriteBatch batch := rfl
    obtain ⟨key, hw⟩ := hdel w (List.mem_cons_self w batch)
    subst hw
    rw [hstep, ih _ (fun w hw => hdel w (List.mem_cons_of_mem _ hw))]
    simp only [BatchWrite.apply, Get_after_Delete, List.mem_cons, BatchWrite.delete.injEq]
    by_cases h1 : BatchWrite.delete k ∈ batch
    · simp [h1]
    · by_cases h2 : key = k
      · simp [h1, h2]
      · have h3 : ¬ k = key := fun e => h2 e.symm
        simp [h1, h2, h3]

end DBHandle

/-! ## Lemmas on key ranges -/

theorem createCompositeKeyForPRWSet_ne_purgeIndex (t e : GoString) (h : Nat) (h' : Nat)
    (t' e' : GoString) :
    createCompositeKeyForPRWSet t e h ≠ createCompositeKeyForPurgeIndex h' t' e' := by
  simp [createCompositeKeyForPRWSet, createCompositeKeyForPurgeIndex, prwsetPrefix,
    purgeIndexPrefix]

/-- A key of the scan of `Purge` starts with the purge-index byte. -/
theorem head_of_purge_scan (k x : Bytes) (h1 : bytesLt k [purgeIndexPrefix] = false)
    (h2 : bytesLt k (purgeIndexPrefix :: x) = true) : ∃ rest, k = purgeIndexPrefix :: rest := by
  cases k with
  | nil => simp [bytesLt] at h1
  | cons a r =>
    simp only [bytesLt_cons, bytesLt_nil_right, Bool.and_false, Bool.or_false,
      decide_eq_false_iff_not] at h1
    simp only [bytesLt_cons, Bool.or_eq_true, Bool.and_eq_true, decide_eq_true_eq] at h2
    rcases h2 with h2 | h2
    · exact absurd h2 h1
    · exact ⟨r, by rw [h2.1]⟩

/-- A key of the scan of `GetMinEndorsementBlkHt` starts with the purge-index byte. -/
theorem head_of_index_scan (k : Bytes) (h1 : bytesLt k [purgeIndexPrefix] = false)
    (h2 : bytesLt k [purgeIndexPrefix + 1] = true) : ∃ rest, k = purgeIndexPrefix :: rest := by
  cases k with
  | nil => simp [bytesLt] at h1
  | cons a r =>
    simp only [bytesLt_cons, bytesLt_nil_right, Bool.and_false, Bool.or_false,
      decide_eq_false_iff_not, decide_eq_true_eq] at h1 h2
    refine ⟨r, ?_⟩
    have : a = purgeIndexPrefix := by
      apply Fin.ext
      rw [Fin.lt_def] at h1 h2
      have e1 : (purgeIndexPrefix : Byte).val = 73 := rfl
      have e2 : (purgeIndexPrefix + 1 : Byte).val = 74 := rfl
      omega
    rw [this]

theorem purgeIndex_ge_start (h : Nat) (t e : GoString) :
    bytesLt (createCompositeKeyForPurgeIndex h t e) [purgeIndexPrefix] = false := by
  simp [createCompositeKeyForPurgeIndex, bytesLt_cons, bytesLt_nil_right]

theorem purgeIndex_lt_end (h : Nat) (t e : GoString) :
    bytesLt (createCompositeKeyForPurgeIndex h t e) [purgeIndexPrefix + 1] = true := by
  simp [createCompositeKeyForPurgeIndex, bytesLt_cons, purgeIndexPrefix]

theorem purgeIndex_lt_bound (h m : Nat) (t e : GoString) (hh : h < 2 ^ 64) (hm : m < 2 ^ 64) :
    bytesLt (createCompositeKeyForPurgeIndex h t e) (purgeIndexPrefix :: encodeHeight m)
      = decide (h < m) := by
  have := bytesLt_append_of_length_eq (encodeHeight h) (encodeHeight m)
    (escapeField t ++ compositeKeySep :: escapeField e) []
    (by rw [encodeHeight_length, encodeHeight_length])
  rw [List.append_nil] at this
  simp only [createCompositeKeyForPurgeIndex, bytesLt_cons, lt_irrefl, decide_False,
    decide_True, Bool.true_and, Bool.false_or, this, bytesLt_nil_right, Bool.and_false,
    Bool.or_false]
  exact bytesLt_encodeHeight h m hh hm

/-- A field followed by the delimiter, against a field followed by the byte after the
delimiter: smaller exactly when the first field is smaller or equal. -/
theorem bytesLt_escapeField_end (t txid : GoString) (X : Bytes) :
    bytesLt (escapeField t ++ compositeKeySep :: X) (escapeField txid ++ [compositeKeySep + 1])
      = (bytesLt t txid || decide (t = txid)) := by
  induction t generalizing txid with
  | nil =>
    cases txid with
    | nil => simp [escapeField, bytesLt_cons, compositeKeySep]
    | cons b r =>
      obtain ⟨c, rest, hc, hpos⟩ := escapeField_head_pos b r
      rw [hc]
      simp [escapeField, bytesLt, compositeKeySep, hpos]
  | cons a s ih =>
    cases txid with
    | nil =>
      obtain ⟨c, rest, hc, hpos⟩ := escapeField_head_pos a s
      rw [hc]
      have h1 : ¬ c < 1 := by
        rw [Fin.lt_def] at hpos ⊢
        simp only [Fin.val_zero, Fin.val_one] at hpos ⊢
        omega
      simp [escapeField, bytesLt_cons, bytesLt_nil_right, compositeKeySep, h1]
    | cons b r =>
      rw [bytesLt_escapeField_cons, ih r, bytesLt_cons, decide_cons_eq]
      cases decide (a < b) <;> cases decide (a = b) <;> cases bytesLt s r <;>
        cases decide (s = r) <;> rfl

theorem prwset_in_txidRange (t e : GoString) (h : Nat) (txid : GoString) :
    (bytesLt (createCompositeKeyForPRWSet t e h) (Store.txidRange txid).1 = false ∧
      bytesLt (createCompositeKeyForPRWSet t e h) (Store.txidRange txid).2 = true)
      ↔ t = txid := by
  have h1 := bytesLt_escapeField t txid
    (compositeKeySep :: (escapeField e ++ compositeKeySep :: encodeHeight h)) [compositeKeySep]
    (by simp) (by simp)
  have h2 := bytesLt_escapeField_end t txid (escapeField e ++ compositeKeySep :: encodeHeight h)
  simp only [bytesLt_cons, lt_irrefl, decide_False, decide_True, bytesLt_nil_right,
    Bool.and_false, Bool.or_false] at h1
  simp only [createCompositeKeyForPRWSet, Store.txidRange, bytesLt_cons, lt_irrefl,
    decide_False, decide_True, Bool.true_and, Bool.false_or, h1, h2]
  constructor
  · rintro ⟨ha, hb⟩
    rw [ha] at hb
    simpa using hb
  · intro e
    subst e
    simp [bytesLt_irrefl]

theorem purgeIndex_not_in_txidRange (h : Nat) (t e txid : GoString) :
    bytesLt (createCompositeKeyForPurgeIndex h t e) (Store.txidRange txid).1 = true := by
  simp [createCompositeKeyForPurgeIndex, Store.txidRange, bytesLt_cons, purgeIndexPrefix,
    prwsetPrefix]

/-! ## Lemmas on the transient store -/

namespace Store

theorem Consistent_newStore : newStore.Consistent := by
  refine ⟨?_, ?_⟩
  · simp [newStore, DBHandle.Sorted]
  · intro k v h
    simp [newStore, DBHandle.Get] at h

/-- In a consistent store the data entry of a `uint64` triple comes with its index entry. -/
theorem Consistent.index_of_record {s : Store} (hc : s.Consistent) (t e : GoString) (h : Nat)
    (p : Bytes) (hh : h < 2 ^ 64) (hr : s.holdsRecord t e h p) : s.holdsIndex t e h := by
  rcases hc.2 _ _ hr with ⟨t', e', h', hh', hk, hidx⟩ | ⟨t', e', h', _, hk, _⟩
  · obtain ⟨a, b, c⟩ := createCompositeKeyForPRWSet_injective h h' t e t' e' hh hh' hk
    subst a b c
    exact hidx
  · exact absurd hk (createCompositeKeyForPRWSet_ne_purgeIndex _ _ _ _ _ _)

/-- In a consistent store the index entry of a `uint64` triple is the empty marker and
comes with its data entry. -/
theorem Consistent.record_of_index {s : Store} (hc : s.Consistent) (t e : GoString) (h : Nat)
    (v : Bytes) (hh : h < 2 ^ 64)
    (hi : s.db.Get (createCompositeKeyForPurgeIndex h t e) = some v) :
    v = [] ∧ ∃ p, s.holdsRecord t e h p := by
  rcases hc.2 _ _ hi with ⟨t', e', h', _, hk, _⟩ | ⟨t', e', h', hh', hk, hv, p, hp⟩
  · exact absurd hk.symm (createCompositeKeyForPRWSet_ne_purgeIndex _ _ _ _ _ _)
  · obtain ⟨a, b, c⟩ := createCompositeKeyForPurgeIndex_injective h h' t e t' e' hh hh' hk
    subst a b c
    exact ⟨hv, p, hp⟩

theorem Persist_eq (s : Store) (t e : GoString) (h : Nat) (p : Bytes) :
    s.Persist t e h p = .ok ⟨(s.db.Put (createCompositeKeyForPRWSet t e h) p).Put
      (createCompositeKeyForPurgeIndex h t e) []⟩ := rfl

theorem Persist_Consistent (s : Store) (hc : s.Consistent) (t e : GoString) (h : Nat)
    (p : Bytes) (hh : h < 2 ^ 64) :
    Consistent ⟨(s.db.Put (createCompositeKeyForPRWSet t e h) p).Put
      (createCompositeKeyForPurgeIndex h t e) []⟩ := by
  have hne := createCompositeKeyForPRWSet_ne_purgeIndex
  refine ⟨DBHandle.Sorted_Put _ _ _ (DBHandle.Sorted_Put _ _ _ hc.1), ?_⟩
  intro k v hk
  simp only [DBHandle.Get_after_Put] at hk ⊢
  by_cases h1 : createCompositeKeyForPurgeIndex h t e = k
  · rw [if_pos h1] at hk
    refine Or.inr ⟨t, e, h, hh, h1.symm, (Option.some.inj hk).symm, p, ?_⟩
    rw [if_neg (fun e' => hne _ _ _ _ _ _ e'.symm), if_pos rfl]
  · rw [if_neg h1] at hk
    by_cases h2 : createCompositeKeyForPRWSet t e h = k
    · refine Or.inl ⟨t, e, h, hh, h2.symm, ?_⟩
      rw [if_pos rfl]
    · rw [if_neg h2] at hk
      rcases hc.2 k v hk with ⟨t', e', h', hh', hk', hidx⟩ | ⟨t', e', h', hh', hk', hv, p', hp'⟩
      · refine Or.inl ⟨t', e', h', hh', hk', ?_⟩
        by_cases h3 : createCompositeKeyForPurgeIndex h t e
            = createCompositeKeyForPurgeIndex h' t' e'
        · rw [if_pos h3]
        · rw [if_neg h3, if_neg (hne _ _ _ _ _ _), hidx]
      · refine Or.inr ⟨t', e', h', hh', hk', hv, ?_⟩
        rw [if_neg (fun e' => hne _ _ _ _ _ _ e'.symm)]
        by_cases h3 : createCompositeKeyForPRWSet t e h = createCompositeKeyForPRWSet t' e' h'
        · exact ⟨p, by rw [if_pos h3]⟩
        · exact ⟨p', by rw [if_neg h3, hp']⟩

theorem Persist_holdsRecord (s : Store) (t e : GoString) (h : Nat) (p : Bytes)
    (hh : h < 2 ^ 64) (t' e' : GoString) (h' : Nat) (p' : Bytes) (hh' : h' < 2 ^ 64) :
    holdsRecord ⟨(s.db.Put (createCompositeKeyForPRWSet t e h) p).Put
        (createCompositeKeyForPurgeIndex h t e) []⟩ t' e' h' p'
      ↔ if (t', e', h') = (t, e, h) then p' = p else s.holdsRecord t' e' h' p' := by
  simp only [holdsRecord, DBHandle.Get_after_Put]
  rw [if_neg (fun e' => createCompositeKeyForPRWSet_ne_purgeIndex _ _ _ _ _ _ e'.symm)]
  by_cases h3 : createCompositeKeyForPRWSet t e h = createCompositeKeyForPRWSet t' e' h'
  · obtain ⟨a, b, c⟩ := createCompositeKeyForPRWSet_injective h h' t e t' e' hh hh' h3
    subst a b c
    simp only [if_true, Option.some.injEq]
    exact eq_comm
  · have hne : ¬ (t', e', h') = (t, e, h) := by
      intro e3
      simp only [Prod.mk.injEq] at e3
      apply h3
      rw [e3.1, e3.2.1, e3.2.2]
    rw [if_neg h3, if_neg hne]

theorem purgeBatch_deletes (s : Store) (m : Nat) :
    ∀ w ∈ s.purgeBatch m, ∃ key, w = BatchWrite.delete key := by
  intro w hw
  simp only [purgeBatch, purgeWrites, List.mem_flatMap, List.mem_cons, List.mem_singleton,
    List.not_mem_nil, or_false] at hw
  obtain ⟨e, _, hw | hw⟩ := hw
  · exact ⟨_, hw⟩
  · exact ⟨_, hw⟩

/-- The keys found by the scan of `Purge` in a consistent store: the index keys of the
triples below the threshold. -/
theorem Consistent.mem_purge_scan {s : Store} (hc : s.Consistent) (m : Nat)
    (hm : m < 2 ^ 64) (x : Bytes × Bytes) :
    x ∈ s.db.GetIterator [purgeIndexPrefix] (purgeIndexPrefix :: encodeHeight m)
      ↔ ∃ t e h, h < 2 ^ 64 ∧ h < m ∧ x = (createCompositeKeyForPurgeIndex h t e, []) ∧
          s.holdsIndex t e h := by
  rw [DBHandle.mem_GetIterator]
  constructor
  · rintro ⟨hmem, h1, h2⟩
    have hget := DBHandle.Get_of_mem s.db hc.1 x.1 x.2 hmem
    obtain ⟨rest, hrest⟩ := head_of_purge_scan _ _ h1 h2
    rcases hc.2 _ _ hget with ⟨t, e, h, _, hk, _⟩ | ⟨t, e, h, hh, hk, hv, _⟩
    · rw [hrest] at hk
      simp [createCompositeKeyForPRWSet, purgeIndexPrefix, prwsetPrefix] at hk
    · refine ⟨t, e, h, hh, ?_, ?_, ?_⟩
      · rw [hk, purgeIndex_lt_bound h m t e hh hm] at h2
        simpa using h2
      · exact Prod.ext hk hv
      · rw [hk, hv] at hget
        exact hget
  · rintro ⟨t, e, h, hh, hlt, hx, hidx⟩
    subst hx
    refine ⟨DBHandle.mem_of_Get _ _ _ hidx, purgeIndex_ge_start h t e, ?_⟩
    rw [purgeIndex_lt_bound h m t e hh hm]
    simpa using hlt

/-- The data keys `Purge` deletes in a consistent store. -/
theorem Consistent.deleted_record {s : Store} (hc : s.Consistent) (m : Nat) (hm : m < 2 ^ 64)
    (t e : GoString) (h : Nat) (hh : h < 2 ^ 64) :
    BatchWrite.delete (createCompositeKeyForPRWSet t e h) ∈ s.purgeBatch m
      ↔ h < m ∧ s.holdsIndex t e h := by
  simp only [purgeBatch, purgeWrites, List.mem_flatMap, List.mem_cons, List.mem_singleton,
    List.not_mem_nil, or_false, BatchWrite.delete.injEq]
  constructor
  · rintro ⟨x, hx, hk⟩
    obtain ⟨t', e', h', hh', hlt, hx', hidx⟩ := (hc.mem_purge_scan m hm x).mp hx
    subst hx'
    rcases hk with hk | hk
    · rw [splitCompositeKeyOfPurgeIndex_create h' t' e' hh'] at hk
      obtain ⟨a, b, c⟩ := createCompositeKeyForPRWSet_injective h h' t e t' e' hh hh' hk
      subst a b c
      exact ⟨hlt, hidx⟩
    · exact absurd hk (createCompositeKeyForPRWSet_ne_purgeIndex _ _ _ _ _ _)
  · rintro ⟨hlt, hidx⟩
    refine ⟨(createCompositeKeyForPurgeIndex h t e, []),
      (hc.mem_purge_scan m hm _).mpr ⟨t, e, h, hh, hlt, rfl, hidx⟩, Or.inl ?_⟩
    rw [splitCompositeKeyOfPurgeIndex_create h t e hh]

/-- The index keys `Purge` deletes in a consistent store. -/
theorem Consistent.deleted_index {s : Store} (hc : s.Consistent) (m : Nat) (hm : m < 2 ^ 64)
    (t e : GoString) (h : Nat) (hh : h < 2 ^ 64) :
    BatchWrite.delete (createCompositeKeyForPurgeIndex h t e) ∈ s.purgeBatch m
      ↔ h < m ∧ s.holdsIndex t e h := by
  simp only [purgeBatch, purgeWrites, List.mem_flatMap, List.mem_cons, List.mem_singleton,
    List.not_mem_nil, or_false, BatchWrite.delete.injEq]
  constructor
  · rintro ⟨x, hx, hk⟩
    obtain ⟨t', e', h', hh', hlt, hx', hidx⟩ := (hc.mem_purge_scan m hm x).mp hx
    subst hx'
    rcases hk with hk | hk
    · exact absurd hk.symm (createCompositeKeyForPRWSet_ne_purgeIndex _ _ _ _ _ _)
    · obtain ⟨a, b, c⟩ := createCompositeKeyForPurgeIndex_injective h h' t e t' e' hh hh' hk
      subst a b c
      exact ⟨hlt, hidx⟩
  · rintro ⟨hlt, hidx⟩
    exact ⟨(createCompositeKeyForPurgeIndex h t e, []),
      (hc.mem_purge_scan m hm _).mpr ⟨t, e, h, hh, hlt, rfl, hidx⟩, Or.inr rfl⟩

theorem Purge_eq (s : Store) (m : Nat) :
    s.Purge m = .ok ⟨s.db.WriteBatch (s.purgeBatch m)⟩ := rfl

theorem Purge_Get (s : Store) (m : Nat) (k : Bytes) :
    (s.db.WriteBatch (s.purgeBatch m)).Get k
      = if BatchWrite.delete k ∈ s.purgeBatch m then none else s.db.Get k :=
  DBHandle.Get_WriteBatch_deletes _ _ _ (purgeBatch_deletes s m)

/-- After `Purge` a consistent store holds the records it held at or above the threshold. -/
theorem Purge_holdsRecord {s : Store} (hc : s.Consistent) (m : Nat) (hm : m < 2 ^ 64)
    (t e : GoString) (h : Nat) (p : Bytes) (hh : h < 2 ^ 64) :
    holdsRecord ⟨s.db.WriteBatch (s.purgeBatch m)⟩ t e h p
      ↔ s.holdsRecord t e h p ∧ m ≤ h := by
  simp only [holdsRecord, Purge_Get]
  by_cases hd : BatchWrite.delete (createCompositeKeyForPRWSet t e h) ∈ s.purgeBatch m
  · rw [if_pos hd]
    have := ((hc.deleted_record m hm t e h hh).mp hd).1
    constructor
    · intro h0
      exact absurd h0 (by simp)
    · rintro ⟨_, hle⟩
      omega
  · rw [if_neg hd]
    constructor
    · intro hr
      refine ⟨hr, ?_⟩
      by_contra hlt
      exact hd ((hc.deleted_record m hm t e h hh).mpr
        ⟨by omega, hc.index_of_record t e h p hh hr⟩)
    · exact fun hr => hr.1

/-- After `Purge` a consistent store holds the index entries it held at or above the
threshold. -/
theorem Purge_holdsIndex {s : Store} (hc : s.Consistent) (m : Nat) (hm : m < 2 ^ 64)
    (t e : GoString) (h : Nat) (hh : h < 2 ^ 64) :
    holdsIndex ⟨s.db.WriteBatch (s.purgeBatch m)⟩ t e h ↔ s.holdsIndex t e h ∧ m ≤ h := by
  simp only [holdsIndex, Purge_Get]
  by_cases hd : BatchWrite.delete (createCompositeKeyForPurgeIndex h t e) ∈ s.purgeBatch m
  · rw [if_pos hd]
    have := ((hc.deleted_index m hm t e h hh).mp hd).1
    constructor
    · intro h0
      exact absurd h0 (by simp)
    · rintro ⟨_, hle⟩
      omega
  · rw [if_neg hd]
    constructor
    · intro hr
      refine ⟨hr, ?_⟩
      by_contra hlt
      exact hd ((hc.deleted_index m hm t e h hh).mpr ⟨by omega, hr⟩)
    · exact fun hr => hr.1

theorem Purge_Consistent {s : Store} (hc : s.Consistent) (m : Nat) (hm : m < 2 ^ 64) :
    Consistent ⟨s.db.WriteBatch (s.purgeBatch m)⟩ := by
  refine ⟨DBHandle.Sorted_WriteBatch _ _ hc.1, ?_⟩
  intro k v hk
  have hk' := hk
  rw [Purge_Get] at hk'
  by_cases hd : BatchWrite.delete k ∈ s.purgeBatch m
  · rw [if_pos hd] at hk'
    exact absurd hk' (by simp)
  · rw [if_neg hd] at hk'
    rcases hc.2 k v hk' with ⟨t, e, h, hh, hkey, hidx⟩ | ⟨t, e, h, hh, hkey, hv, p, hp⟩
    · subst hkey
      have hrec : holdsRecord ⟨s.db.WriteBatch (s.purgeBatch m)⟩ t e h v := hk
      have hle := ((Purge_holdsRecord hc m hm t e h v hh).mp hrec).2
      exact Or.inl ⟨t, e, h, hh, rfl, (Purge_holdsIndex hc m hm t e h hh).mpr ⟨hidx, hle⟩⟩
    · subst hkey
      subst hv
      have hidx : holdsIndex ⟨s.db.WriteBatch (s.purgeBatch m)⟩ t e h := hk
      have hle := ((Purge_holdsIndex hc m hm t e h hh).mp hidx).2
      exact Or.inr ⟨t, e, h, hh, rfl, rfl, p,
        (Purge_holdsRecord hc m hm t e h p hh).mpr ⟨hp, hle⟩⟩

end Store

namespace Store

theorem Refines_newStore : newStore.Refines [] := by
  refine ⟨Consistent_newStore, by simp, ?_⟩
  intro t e h p _
  simp [holdsRecord, newStore, DBHandle.Get]

theorem Refines_persist {s : Store} {recs : List SpecRecord} (hr : s.Refines recs)
    (t e : GoString) (h : Nat) (p : Bytes) (hh : h < 2 ^ 64) :
    Refines ⟨(s.db.Put (createCompositeKeyForPRWSet t e h) p).Put
      (createCompositeKeyForPurgeIndex h t e) []⟩ (SpecCall recs (.persist t e h p)) := by
  refine ⟨Persist_Consistent s hr.1 t e h p hh, ?_, ?_⟩
  · intro r hmem
    simp only [SpecCall, List.mem_append, List.mem_filter, List.mem_singleton] at hmem
    rcases hmem with hmem | hmem
    · exact hr.2.1 r hmem.1
    · rw [hmem]
      exact hh
  · intro t' e' h' p' hh'
    rw [Persist_holdsRecord s t e h p hh t' e' h' p' hh']
    simp only [SpecCall, List.mem_append, List.mem_filter, List.mem_singleton,
      Bool.not_eq_true', decide_eq_false_iff_not]
    by_cases hk : (t', e', h') = (t, e, h)
    · rw [if_pos hk]
      simp only [Prod.mk.injEq] at hk ⊢
      obtain ⟨a, b, c⟩ := hk
      subst a b c
      simp
    · rw [if_neg hk, hr.2.2 t' e' h' p' hh']
      simp only [Prod.mk.injEq] at hk ⊢
      tauto

theorem Refines_purge {s : Store} {recs : List SpecRecord} (hr : s.Refines recs)
    (m : Nat) (hm : m < 2 ^ 64) :
    Refines ⟨s.db.WriteBatch (s.purgeBatch m)⟩ (SpecCall recs (.purge m)) := by
  refine ⟨Purge_Consistent hr.1 m hm, ?_, ?_⟩
  · intro r hmem
    simp only [SpecCall, List.mem_filter] at hmem
    exact hr.2.1 r hmem.1
  · intro t e h p hh
    rw [Purge_holdsRecord hr.1 m hm t e h p hh, hr.2.2 t e h p hh]
    simp [SpecCall, List.mem_filter]

theorem Refines_run (calls : List StoreCall) (hcalls : ∀ c ∈ calls, c.inRange = true)
    (s : Store) (recs : List SpecRecord) (hr : s.Refines recs) :
    ∃ s', runStoreCalls s calls = .ok s' ∧ s'.Refines (calls.foldl SpecCall recs) := by
  induction calls generalizing s recs with
  | nil => exact ⟨s, rfl, hr⟩
  | cons c calls ih =>
    have hc : c.inRange = true := hcalls c (List.mem_cons_self c calls)
    have hrest : ∀ c' ∈ calls, c'.inRange = true :=
      fun c' h' => hcalls c' (List.mem_cons_of_mem c h')
    cases c with
    | persist t e h p =>
      have hh : h < 2 ^ 64 := by simpa [StoreCall.inRange] using hc
      obtain ⟨s', hs', hr'⟩ := ih hrest _ _ (Refines_persist hr t e h p hh)
      exact ⟨s', by simpa [runStoreCalls, StoreCall.apply, Persist_eq] using hs', hr'⟩
    | purge m =>
      have hm : m < 2 ^ 64 := by simpa [StoreCall.inRange] using hc
      obtain ⟨s', hs', hr'⟩ := ih hrest _ _ (Refines_purge hr m hm)
      exact ⟨s', by simpa [runStoreCalls, StoreCall.apply, Purge_eq] using hs', hr'⟩

/-- Every store reached from the empty store by `uint64` calls holds exactly the records
the specification of the calls lists. -/
theorem reachable_Refines (calls : List StoreCall) (hcalls : ∀ c ∈ calls, c.inRange = true) :
    ∃ s, runStoreCalls newStore calls = .ok s ∧ s.Refines (specRecords calls) :=
  Refines_run calls hcalls newStore [] Refines_newStore

/-- `Purge` deletes nothing when no index entry lies below the threshold. -/
theorem Consistent.purgeBatch_eq_nil {s : Store} (hc : s.Consistent) (m : Nat)
    (hm : m < 2 ^ 64) (hnone : ∀ t e h, h < 2 ^ 64 → s.holdsIndex t e h → m ≤ h) :
    s.purgeBatch m = [] := by
  have hscan : s.db.GetIterator [purgeIndexPrefix] (purgeIndexPrefix :: encodeHeight m) = [] := by
    rw [List.eq_nil_iff_forall_not_mem]
    intro x hx
    obtain ⟨t, e, h, hh, hlt, _, hidx⟩ := (hc.mem_purge_scan m hm x).mp hx
    have := hnone t e h hh hidx
    omega
  simp [purgeBatch, hscan]

/-- The keys found by the scan of `GetMinEndorsementBlkHt` in a consistent store. -/
theorem Consistent.mem_index_scan {s : Store} (hc : s.Consistent) (x : Bytes × Bytes) :
    x ∈ s.db.GetIterator [purgeIndexPrefix] [purgeIndexPrefix + 1]
      ↔ ∃ t e h, h < 2 ^ 64 ∧ x = (createCompositeKeyForPurgeIndex h t e, []) ∧
          s.holdsIndex t e h := by
  rw [DBHandle.mem_GetIterator]
  constructor
  · rintro ⟨hmem, h1, h2⟩
    have hget := DBHandle.Get_of_mem s.db hc.1 x.1 x.2 hmem
    obtain ⟨rest, hrest⟩ := head_of_index_scan _ h1 h2
    rcases hc.2 _ _ hget with ⟨t, e, h, _, hk, _⟩ | ⟨t, e, h, hh, hk, hv, _⟩
    · rw [hrest] at hk
      simp [createCompositeKeyForPRWSet, purgeIndexPrefix, prwsetPrefix] at hk
    · refine ⟨t, e, h, hh, Prod.ext hk hv, ?_⟩
      rw [hk, hv] at hget
      exact hget
  · rintro ⟨t, e, h, hh, hx, hidx⟩
    subst hx
    exact ⟨DBHandle.mem_of_Get _ _ _ hidx, purgeIndex_ge_start h t e, purgeIndex_lt_end h t e⟩

/-- What `GetMinEndorsementBlkHt` returns on a consistent store. -/
theorem Consistent.GetMinEndorsementBlkHt_spec {s : Store} (hc : s.Consistent) :
    (s.GetMinEndorsementBlkHt = .error .ErrTransientStoreEmpty
      ↔ ∀ t e h p, h < 2 ^ 64 → ¬ s.holdsRecord t e h p) ∧
    ((∃ t e h p, h < 2 ^ 64 ∧ s.holdsRecord t e h p) →
      ∃ n, s.GetMinEndorsementBlkHt = .ok n ∧ n < 2 ^ 64 ∧ (∃ t e p, s.holdsRecord t e n p) ∧
        ∀ t e h p, h < 2 ^ 64 → s.holdsRecord t e h p → n ≤ h) := by
  have hsorted : (s.db.GetIterator [purgeIndexPrefix] [purgeIndexPrefix + 1]).Pairwise
      (fun a b => bytesLt a.1 b.1 = true) := List.Pairwise.filter _ hc.1
  have hmem := hc.mem_index_scan
  unfold GetMinEndorsementBlkHt
  cases hscan : s.db.GetIterator [purgeIndexPrefix] [purgeIndexPrefix + 1] with
  | nil =>
    rw [hscan] at hmem
    have hnone : ∀ t e h p, h < 2 ^ 64 → ¬ s.holdsRecord t e h p := by
      intro t e h p hh hrec
      have := (hmem (createCompositeKeyForPurgeIndex h t e, [])).mpr
        ⟨t, e, h, hh, rfl, hc.index_of_record t e h p hh hrec⟩
      simp at this
    refine ⟨⟨fun _ => hnone, fun _ => rfl⟩, ?_⟩
    rintro ⟨t, e, h, p, hh, hrec⟩
    exact absurd hrec (hnone t e h p hh)
  | cons x rest =>
    rw [hscan] at hmem hsorted
    obtain ⟨t₀, e₀, h₀, hh₀, hx, hidx₀⟩ := (hmem x).mp (List.mem_cons_self x rest)
    obtain ⟨_, p₀, hrec₀⟩ := hc.record_of_index t₀ e₀ h₀ [] hh₀ hidx₀
    subst hx
    simp only [splitCompositeKeyOfPurgeIndex_create h₀ t₀ e₀ hh₀]
    refine ⟨⟨fun h => by simp at h, fun h => absurd hrec₀ (h t₀ e₀ h₀ p₀ hh₀)⟩, ?_⟩
    intro _
    refine ⟨h₀, rfl, hh₀, ⟨t₀, e₀, p₀, hrec₀⟩, ?_⟩
    intro t e h p hh hrec
    have hin := (hmem (createCompositeKeyForPurgeIndex h t e, [])).mpr
      ⟨t, e, h, hh, rfl, hc.index_of_record t e h p hh hrec⟩
    rw [List.mem_cons] at hin
    rcases hin with hin | hin
    · have hk := congrArg Prod.fst hin
      simp only at hk
      have := (createCompositeKeyForPurgeIndex_injective h h₀ t e t₀ e₀ hh hh₀ hk).1
      omega
    · have hlt := (List.pairwise_cons.mp hsorted).1 _ hin
      simp only at hlt
      rw [bytesLt_createCompositeKeyForPurgeIndex h₀ h t₀ e₀ t e hh₀ hh] at hlt
      simp only [tripleLt, Bool.or_eq_true, Bool.and_eq_true, decide_eq_true_eq] at hlt
      omega

/-- What `GetTxPrivateRWSetByTxid` yields on a consistent store. -/
theorem Consistent.GetTxPrivateRWSetByTxid_spec {s : Store} (hc : s.Consistent)
    (txid : GoString) :
    ∃ l, s.GetTxPrivateRWSetByTxid txid = .ok l ∧ l.Nodup ∧
      (∀ r ∈ l, r.EndorsementBlockHeight < 2 ^ 64) ∧
      ∀ r, r.EndorsementBlockHeight < 2 ^ 64 →
        (r ∈ l ↔ s.holdsRecord txid r.EndorserId r.EndorsementBlockHeight
          r.PrivateSimulationResults) := by
  have hscan : ∀ x ∈ s.db.GetIterator (txidRange txid).1 (txidRange txid).2,
      ∃ e h, h < 2 ^ 64 ∧ x.1 = createCompositeKeyForPRWSet txid e h ∧
        s.holdsRecord txid e h x.2 := by
    intro x hx
    rw [DBHandle.mem_GetIterator] at hx
    obtain ⟨hmem, h1, h2⟩ := hx
    have hget := DBHandle.Get_of_mem s.db hc.1 x.1 x.2 hmem
    rcases hc.2 _ _ hget with ⟨t, e, h, hh, hk, _⟩ | ⟨t, e, h, _, hk, _⟩
    · rw [hk] at h1 h2
      have ht := (prwset_in_txidRange t e h txid).mp ⟨h1, h2⟩
      subst ht
      refine ⟨e, h, hh, hk, ?_⟩
      rw [hk] at hget
      exact hget
    · rw [hk, purgeIndex_not_in_txidRange] at h1
      exact absurd h1 (by decide)
  refine ⟨_, rfl, ?_, ?_, ?_⟩
  · apply List.Nodup.map_on
    · intro x hx y hy hxy
      obtain ⟨e, h, hh, hk, _⟩ := hscan x hx
      obtain ⟨e', h', hh', hk', _⟩ := hscan y hy
      simp only [hk, hk', splitCompositeKeyOfPRWSet_create _ _ _ hh,
        splitCompositeKeyOfPRWSet_create _ _ _ hh',
        EndorserPrivateSimulationResults.mk.injEq] at hxy
      apply Prod.ext
      · rw [hk, hk', hxy.1, hxy.2.1]
      · exact hxy.2.2
    · have hp : (s.db.GetIterator (txidRange txid).1 (txidRange txid).2).Pairwise
          (fun a b => bytesLt a.1 b.1 = true) := List.Pairwise.filter _ hc.1
      refine List.Pairwise.imp ?_ hp
      intro a b hab e
      rw [e, bytesLt_irrefl] at hab
      exact absurd hab (by decide)
  · intro r hr
    rw [List.mem_map] at hr
    obtain ⟨x, hx, hxr⟩ := hr
    obtain ⟨e, h, hh, hk, _⟩ := hscan x hx
    rw [← hxr]
    simp only [hk, splitCompositeKeyOfPRWSet_create _ _ _ hh]
    exact hh
  · intro r hrh
    rw [List.mem_map]
    constructor
    · rintro ⟨x, hx, hxr⟩
      obtain ⟨e, h, hh, hk, hrec⟩ := hscan x hx
      rw [← hxr]
      simp only [hk, splitCompositeKeyOfPRWSet_create _ _ _ hh]
      exact hrec
    · intro hrec
      refine ⟨(createCompositeKeyForPRWSet txid r.EndorserId r.EndorsementBlockHeight,
        r.PrivateSimulationResults), ?_, ?_⟩
      · rw [DBHandle.mem_GetIterator]
        have := (prwset_in_txidRange txid r.EndorserId r.EndorsementBlockHeight txid).mpr rfl
        exact ⟨DBHandle.mem_of_Get _ _ _ hrec, this.1, this.2⟩
      · simp only [splitCompositeKeyOfPRWSet_create _ _ _ hrh]

end Store

/-! ## Lemmas on update maps -/

namespace UpdateMap

theorem get_Put_ns (b : UpdateMap) (ns coll key : GoString) (value : GoBytes)
    (version : Option version.Height) :
    GoMap.get (b.Put ns coll key value version) ns
      = some ⟨(getOrCreateNsBatch b ns).2.UpdateBatch.Put coll key value version⟩ := by
  simp [Put, GoMap.get_set_self]

theorem get_Delete_ns (b : UpdateMap) (ns coll key : GoString) (version : Option version.Height) :
    GoMap.get (b.Delete ns coll key version) ns
      = some ⟨(getOrCreateNsBatch b ns).2.UpdateBatch.Delete coll key version⟩ := by
  simp [Delete, GoMap.get_set_self]

theorem Put_ne_nil (b : UpdateMap) (ns coll key : GoString) (value : GoBytes)
    (version : Option version.Height) : b.Put ns coll key value version ≠ [] := by
  simp only [Put]
  exact GoMap.set_ne_nil _ _ _

theorem Delete_ne_nil (b : UpdateMap) (ns coll key : GoString)
    (version : Option version.Height) : b.Delete ns coll key version ≠ [] := by
  simp only [Delete]
  exact GoMap.set_ne_nil _ _ _

theorem getOrCreateNsBatch_get (b : UpdateMap) (ns coll key : GoString) :
    (getOrCreateNsBatch b ns).2.UpdateBatch.Get coll key = b.Get ns coll key := by
  unfold getOrCreateNsBatch Get
  cases h : GoMap.get b ns with
  | none => simp [statedb.NewUpdateBatch, statedb.UpdateBatch.Get, GoMap.get]
  | some batch => simp

theorem getOrCreateNsBatch_other (b : UpdateMap) (ns ns' : GoString) (h : ns ≠ ns') :
    GoMap.get (getOrCreateNsBatch b ns).1 ns' = GoMap.get b ns' := by
  unfold getOrCreateNsBatch
  cases hb : GoMap.get b ns with
  | none => simp [GoMap.get_set_other _ _ _ _ h]
  | some batch => simp

/-- What `Get` returns after a write of the versioned value `vv` on `(ns, coll, key)`. -/
theorem Get_write (b : UpdateMap) (ns coll key : GoString) (vv : statedb.VersionedValue)
    (ns' coll' key' : GoString) :
    Get (GoMap.set (getOrCreateNsBatch b ns).1 ns
        ⟨⟨(getOrCreateNsBatch b ns).2.UpdateBatch.updates.set (coll, key) vv⟩⟩) ns' coll' key'
      = if (ns, coll, key) = (ns', coll', key') then some vv else b.Get ns' coll' key' := by
  by_cases hns : ns = ns'
  · subst hns
    by_cases hck : (coll, key) = (coll', key')
    · have h3 : (ns, coll, key) = (ns, coll', key') := by rw [hck]
      rw [if_pos h3]
      simp only [Get, GoMap.get_set_self, statedb.UpdateBatch.Get]
      rw [← hck, GoMap.get_set_self]
    · have h3 : ¬ (ns, coll, key) = (ns, coll', key') := by
        intro h
        apply hck
        simp only [Prod.mk.injEq] at h ⊢
        exact h.2
      rw [if_neg h3]
      have := getOrCreateNsBatch_get b ns coll' key'
      simp only [statedb.UpdateBatch.Get] at this
      simp only [Get, GoMap.get_set_self, statedb.UpdateBatch.Get]
      rw [GoMap.get_set_other _ _ _ _ hck, this]
      rfl
  · have h3 : ¬ (ns, coll, key) = (ns', coll', key') := by
      intro h
      apply hns
      simp only [Prod.mk.injEq] at h
      exact h.1
    rw [if_neg h3]
    simp only [Get]
    rw [GoMap.get_set_other _ _ _ _ hns, getOrCreateNsBatch_other b ns ns' hns]

theorem Get_Put (b : UpdateMap) (ns coll key : GoString) (value : GoBytes)
    (version : Option version.Height) (ns' coll' key' : GoString) :
    (b.Put ns coll key value version).Get ns' coll' key'
      = if (ns, coll, key) = (ns', coll', key') then some ⟨value, version⟩
        else b.Get ns' coll' key' :=
  Get_write b ns coll key ⟨value, version⟩ ns' coll' key'

theorem Get_Delete (b : UpdateMap) (ns coll key : GoString)
    (version : Option version.Height) (ns' coll' key' : GoString) :
    (b.Delete ns coll key version).Get ns' coll' key'
      = if (ns, coll, key) = (ns', coll', key') then some ⟨none, version⟩
        else b.Get ns' coll' key' :=
  Get_write b ns coll key ⟨none, version⟩ ns' coll' key'

theorem IsEmpty_iff (b : UpdateMap) : b.IsEmpty = true ↔ b = [] := by
  cases b <;> simp [IsEmpty, GoMap.len]

theorem IsEmpty_apply (b : UpdateMap) (c : MapCall) :
    (c.apply b).IsEmpty = true ↔ b.IsEmpty = true ∧ c.isWrite = false := by
  cases c with
  | put ns coll key value version =>
    simp [MapCall.apply, MapCall.isWrite, IsEmpty_iff, Put_ne_nil]
  | delete ns coll key version =>
    simp [MapCall.apply, MapCall.isWrite, IsEmpty_iff, Delete_ne_nil]
  | get ns coll key => simp [MapCall.apply, MapCall.isWrite]

theorem IsEmpty_run (calls : List MapCall) (b : UpdateMap) :
    (runMapCalls b calls).IsEmpty = true
      ↔ b.IsEmpty = true ∧ ∀ c ∈ calls, c.isWrite = false := by
  induction calls generalizing b with
  | nil => simp [runMapCalls]
  | cons c calls ih =>
    have hstep : runMapCalls b (c :: calls) = runMapCalls (c.apply b) calls := rfl
    rw [hstep, ih, IsEmpty_apply]
    simp only [List.mem_cons, forall_eq_or_imp]
    tauto

end UpdateMap

namespace HashedUpdateBatch

theorem Contains_eq (h : HashedUpdateBatch) (ns coll : GoString) (keyHash : GoBytes) :
    h.Contains ns coll keyHash = (h.UpdateMap.Get ns coll keyHash.toGoString).isSome := by
  unfold Contains UpdateMap.Get
  cases GoMap.get h.UpdateMap ns <;> simp [statedb.UpdateBatch.Exists, statedb.UpdateBatch.Get]

theorem Contains_apply (h : HashedUpdateBatch) (c : HashedCall) (ns coll : GoString)
    (keyHash : GoBytes) :
    (c.apply h).Contains ns coll keyHash = true
      ↔ c.target = (ns, coll, keyHash.toGoString) ∨ h.Contains ns coll keyHash = true := by
  cases c with
  | put ns₀ coll₀ key value version =>
    simp only [Contains_eq, HashedCall.apply, Put, HashedCall.target, UpdateMap.Get_Put]
    split <;> simp_all
  | delete ns₀ coll₀ key version =>
    simp only [Contains_eq, HashedCall.apply, Delete, HashedCall.target, UpdateMap.Get_Delete]
    split <;> simp_all

theorem Contains_run (calls : List HashedCall) (h : HashedUpdateBatch) (ns coll : GoString)
    (keyHash : GoBytes) :
    (runHashedCalls h calls).Contains ns coll keyHash = true
      ↔ h.Contains ns coll keyHash = true
        ∨ ∃ c ∈ calls, c.target = (ns, coll, keyHash.toGoString) := by
  induction calls generalizing h with
  | nil => simp [runHashedCalls]
  | cons c calls ih =>
    have hstep : runHashedCalls h (c :: calls) = runHashedCalls (c.apply h) calls := rfl
    rw [hstep, ih, Contains_apply]
    simp only [List.mem_cons, exists_eq_or_imp]
    tauto

end HashedUpdateBatch

/-! ## Further lemmas on Go maps -/

namespace GoMap

variable {κ ν : Type} [DecidableEq κ]

theorem mem_set (m : GoMap κ ν) (k : κ) (v : ν) (e : κ × ν) (h : e ∈ set m k v) :
    e = (k, v) ∨ e ∈ m := by
  induction m with
  | nil => simpa [set] using h
  | cons a m ih =>
    obtain ⟨k', v'⟩ := a
    by_cases hk : k' = k
    · simp only [set, hk, if_true, List.mem_cons] at h ⊢
      tauto
    · simp only [set, hk, if_false, List.mem_cons] at h ⊢
      rcases h with h | h
      · exact Or.inr (Or.inl h)
      · rcases ih h with h' | h'
        · exact Or.inl h'
        · exact Or.inr (Or.inr h')

theorem set_set (m : GoMap κ ν) (k : κ) (v v' : ν) : set (set m k v) k v' = set m k v' := by
  induction m with
  | nil => simp [set]
  | cons a m ih =>
    obtain ⟨k', w⟩ := a
    by_cases hk : k' = k
    · simp [set, hk]
    · simp [set, hk, ih]

theorem get_isSome_iff_mem_keys (m : GoMap κ ν) (k : κ) :
    (get m k).isSome = true ↔ k ∈ m.map Prod.fst := by
  induction m with
  | nil => simp [get]
  | cons a m ih =>
    obtain ⟨k', w⟩ := a
    by_cases hk : k' = k
    · simp [get, hk]
    · have hk' : ¬ k = k' := fun e => hk e.symm
      simp [get, hk, hk', ih]

theorem keys_set (m : GoMap κ ν) (k : κ) (v : ν) :
    (set m k v).map Prod.fst
      = if k ∈ m.map Prod.fst then m.map Prod.fst else m.map Prod.fst ++ [k] := by
  induction m with
  | nil => simp [set]
  | cons a m ih =>
    obtain ⟨k', w⟩ := a
    by_cases hk : k' = k
    · simp [set, hk]
    · have hk' : ¬ k = k' := fun e => hk e.symm
      simp only [set, hk, if_false, List.map_cons, ih, List.mem_cons, hk', false_or]
      split_ifs <;> simp

theorem keys_nodup_set (m : GoMap κ ν) (k : κ) (v : ν) (h : (m.map Prod.fst).Nodup) :
    ((set m k v).map Prod.fst).Nodup := by
  rw [keys_set]
  split_ifs with hk
  · exact h
  · rw [List.nodup_append]
    refine ⟨h, List.nodup_singleton k, ?_⟩
    intro a ha hb
    simp only [List.mem_singleton] at hb
    subst hb
    exact hk ha

theorem get_of_mem_of_nodup (m : GoMap κ ν) (k : κ) (v : ν) (hn : (m.map Prod.fst).Nodup)
    (h : (k, v) ∈ m) : get m k = some v := by
  induction m with
  | nil => simp at h
  | cons a m ih =>
    obtain ⟨k', w⟩ := a
    simp only [List.map_cons, List.nodup_cons] at hn
    simp only [List.mem_cons, Prod.mk.injEq] at h
    rcases h with h | h
    · simp [get, h.1, h.2]
    · have hne : k' ≠ k := by
        intro e
        apply hn.1
        rw [e]
        exact List.mem_map.mpr ⟨(k, v), h, rfl⟩
      simp [get, hne, ih hn.2 h]

theorem exists_get_of_ne_nil (m : GoMap κ ν) (h : m ≠ []) :
    ∃ k v, (k, v) ∈ m ∧ get m k = some v := by
  cases m with
  | nil => exact absurd rfl h
  | cons a m =>
    obtain ⟨k, v⟩ := a
    exact ⟨k, v, List.mem_cons_self _ _, by simp [get]⟩

end GoMap

/-! ## Further lemmas on update maps -/

namespace UpdateMap

/-- The namespaces of the map after a write on `ns` that stores the sub-batch `nb`. -/
theorem get_ns_after_write (b : UpdateMap) (ns : GoString) (nb : nsBatch) (ns' : GoString) :
    GoMap.get (GoMap.set (getOrCreateNsBatch b ns).1 ns nb) ns'
      = if ns = ns' then some nb else GoMap.get b ns' := by
  by_cases h : ns = ns'
  · subst h
    rw [if_pos rfl, GoMap.get_set_self]
  · rw [if_neg h, GoMap.get_set_other _ _ _ _ h, getOrCreateNsBatch_other b ns ns' h]

/-- The entries of the map after a write on `ns` that stores the sub-batch `nb`. -/
theorem mem_after_write (b : UpdateMap) (ns : GoString) (nb : nsBatch)
    (e : GoString × nsBatch)
    (h : e ∈ GoMap.set (getOrCreateNsBatch b ns).1 ns nb) : e = (ns, nb) ∨ e ∈ b := by
  unfold getOrCreateNsBatch at h
  cases hb : GoMap.get b ns with
  | none =>
    rw [hb] at h
    simp only at h
    rw [GoMap.set_set] at h
    exact GoMap.mem_set _ _ _ _ h
  | some batch =>
    rw [hb] at h
    exact GoMap.mem_set _ _ _ _ h

theorem keys_nodup_after_write (b : UpdateMap) (ns : GoString) (nb : nsBatch)
    (h : (b.map Prod.fst).Nodup) :
    ((GoMap.set (getOrCreateNsBatch b ns).1 ns nb).map Prod.fst).Nodup := by
  unfold getOrCreateNsBatch
  cases hb : GoMap.get b ns with
  | none =>
    simp only
    rw [GoMap.set_set]
    exact GoMap.keys_nodup_set _ _ _ h
  | some batch => exact GoMap.keys_nodup_set _ _ _ h

/-- What a call is as a write: a `Get` leaves the map as it is, a `Put` or a `Delete` on
`(ns, coll, key)` stores under `ns` the sub-batch with one entry set. -/
theorem apply_cases (b : UpdateMap) (c : MapCall) :
    (c.target = none ∧ c.apply b = b) ∨
    ∃ ns coll key vv, c.target = some (ns, coll, key) ∧
      c.apply b = GoMap.set (getOrCreateNsBatch b ns).1 ns
        ⟨⟨(getOrCreateNsBatch b ns).2.UpdateBatch.updates.set (coll, key) vv⟩⟩ := by
  cases c with
  | put ns coll key value version =>
    exact Or.inr ⟨ns, coll, key, ⟨value, version⟩, rfl, rfl⟩
  | delete ns coll key version =>
    exact Or.inr ⟨ns, coll, key, ⟨none, version⟩, rfl, rfl⟩
  | get ns coll key => exact Or.inl ⟨rfl, rfl⟩

theorem Get_isSome_apply (b : UpdateMap) (c : MapCall) (ns coll key : GoString) :
    ((c.apply b).Get ns coll key).isSome = true
      ↔ c.target = some (ns, coll, key) ∨ (b.Get ns coll key).isSome = true := by
  rcases apply_cases b c with ⟨ht, hb⟩ | ⟨ns₀, coll₀, key₀, vv, ht, hb⟩
  · rw [ht, hb]
    simp
  · rw [ht, hb, Get_write]
    split <;> simp_all

theorem Get_isSome_run (calls : List MapCall) (b : UpdateMap) (ns coll key : GoString) :
    ((runMapCalls b calls).Get ns coll key).isSome = true
      ↔ (b.Get ns coll key).isSome = true ∨ ∃ c ∈ calls, c.target = some (ns, coll, key) := by
  induction calls generalizing b with
  | nil => simp [runMapCalls]
  | cons c calls ih =>
    have hstep : runMapCalls b (c :: calls) = runMapCalls (c.apply b) calls := rfl
    rw [hstep, ih, Get_isSome_apply]
    simp only [List.mem_cons, exists_eq_or_imp]
    tauto

theorem Get_nil (ns coll key : GoString) : Get [] ns coll key = none := rfl

/-- From the empty map, an entry is there exactly when a call wrote its triple. -/
theorem Get_isSome_reachable (calls : List MapCall) (ns coll key : GoString) :
    ((runMapCalls [] calls).Get ns coll key).isSome = true
      ↔ ∃ c ∈ calls, c.target = some (ns, coll, key) := by
  rw [Get_isSome_run, Get_nil]
  simp

theorem keys_nodup_run (calls : List MapCall) (b : UpdateMap) (h : (b.map Prod.fst).Nodup) :
    ((runMapCalls b calls).map Prod.fst).Nodup := by
  induction calls generalizing b with
  | nil => exact h
  | cons c calls ih =>
    have hstep : runMapCalls b (c :: calls) = runMapCalls (c.apply b) calls := rfl
    rw [hstep]
    apply ih
    rcases apply_cases b c with ⟨_, hb⟩ | ⟨ns₀, coll₀, key₀, vv, _, hb⟩
    · rw [hb]
      exact h
    · rw [hb]
      exact keys_nodup_after_write b ns₀ _ h

/-- No call leaves a namespace with an empty sub-batch behind. -/
theorem nonempty_run (calls : List MapCall) (b : UpdateMap)
    (h : ∀ e ∈ b, e.2.UpdateBatch.updates ≠ []) :
    ∀ e ∈ runMapCalls b calls, e.2.UpdateBatch.updates ≠ [] := by
  induction calls generalizing b with
  | nil => exact h
  | cons c calls ih =>
    have hstep : runMapCalls b (c :: calls) = runMapCalls (c.apply b) calls := rfl
    rw [hstep]
    apply ih
    rcases apply_cases b c with ⟨_, hb⟩ | ⟨ns₀, coll₀, key₀, vv, _, hb⟩
    · rw [hb]
      exact h
    · rw [hb]
      intro e he
      rcases mem_after_write b ns₀ _ e he with he' | he'
      · rw [he']
        exact GoMap.set_ne_nil _ _ _
      · exact h e he'

/-- The namespaces of a map reached from the empty map are the namespaces written. -/
theorem keys_run (calls : List MapCall) (b : UpdateMap) (ns : GoString) :
    ns ∈ (runMapCalls b calls).map Prod.fst
      ↔ ns ∈ b.map Prod.fst ∨ ∃ c ∈ calls, ∃ coll key, c.target = some (ns, coll, key) := by
  induction calls generalizing b with
  | nil => simp [runMapCalls]
  | cons c calls ih =>
    have hstep : runMapCalls b (c :: calls) = runMapCalls (c.apply b) calls := rfl
    rw [hstep, ih]
    have hc : ns ∈ (c.apply b).map Prod.fst
        ↔ ns ∈ b.map Prod.fst ∨ ∃ coll key, c.target = some (ns, coll, key) := by
      rcases apply_cases b c with ⟨ht, hb⟩ | ⟨ns₀, coll₀, key₀, vv, ht, hb⟩
      · rw [ht, hb]
        simp
      · rw [ht, hb, ← GoMap.get_isSome_iff_mem_keys, ← GoMap.get_isSome_iff_mem_keys,
          get_ns_after_write]
        by_cases hns : ns₀ = ns
        · subst hns
          simp
        · have hns' : ¬ ns = ns₀ := fun e => hns e.symm
          simp [hns, hns']
    rw [hc]
    simp only [List.mem_cons, exists_eq_or_imp, or_assoc]

end UpdateMap

/-- The collection names of a sub-batch are the collections it holds an entry for. -/
theorem mem_GetCollectionNames (nsb : nsBatch) (coll : GoString) :
    coll ∈ nsb.GetCollectionNames
      ↔ ∃ key, (nsb.UpdateBatch.Get coll key).isSome = true := by
  simp only [nsBatch.GetCollectionNames, statedb.UpdateBatch.GetUpdatedNamespaces,
    statedb.UpdateBatch.Get, List.mem_dedup, List.mem_map, GoMap.get_isSome_iff_mem_keys]
  constructor
  · rintro ⟨e, he, hc⟩
    exact ⟨e.1.2, e, he, by rw [← hc]⟩
  · rintro ⟨key, e, he, hk⟩
    exact ⟨e, he, by rw [hk]⟩

/-! ## Claims on update maps -/

/-- C1: after `b.Put(ns, coll, key, v, ver)` with a non-nil value `v`, on any update
map `b`, `b.Get(ns, coll, key)` returns a present versioned value whose value is
exactly `v` and whose version is exactly `ver`; a second `Put` on the same triple
makes `Get` return the second value and version only. -/
theorem C1_get_after_put (b : UpdateMap) (ns coll key : GoString) (v : List Byte)
    (ver : Option version.Height) :
    (b.Put ns coll key (some v) ver).Get ns coll key = some ⟨some v, ver⟩ ∧
    ∀ (v2 : List Byte) (ver2 : Option version.Height),
      ((b.Put ns coll key (some v) ver).Put ns coll key (some v2) ver2).Get ns coll key
        = some ⟨some v2, ver2⟩ := by
  have key_fact : ∀ (b : UpdateMap) (w : List Byte) (u : Option version.Height),
      (b.Put ns coll key (some w) u).Get ns coll key = some ⟨some w, u⟩ := by
    intro b w u
    simp [UpdateMap.Get, UpdateMap.get_Put_ns, statedb.UpdateBatch.Put,
      statedb.UpdateBatch.Get, GoMap.get_set_self]
  exact ⟨key_fact b v ver, fun v2 ver2 => key_fact _ v2 ver2⟩

/-- C2: after `b.Delete(ns, coll, key, ver)`, on any update map `b`, `b.Get(ns, coll,
key)` is not absent: it returns the tombstone (nil value) carrying version `ver`. -/
theorem C2_get_after_delete (b : UpdateMap) (ns coll key : GoString)
    (ver : Option version.Height) :
    (b.Delete ns coll key ver).Get ns coll key = some ⟨none, ver⟩ := by
  simp [UpdateMap.Get, UpdateMap.get_Delete_ns, statedb.UpdateBatch.Delete,
    statedb.UpdateBatch.Get, GoMap.get_set_self]

/-- The conversion `string(b)` yields the bytes of the slice, none for a `nil` slice. -/
theorem toGoString_eq_getD (b : GoBytes) : b.toGoString = b.getD [] := by
  cases b <;> rfl

theorem HashedCall.target_eq_iff (c : HashedCall) (ns coll : GoString) (keyHash : GoBytes) :
    c.target = (ns, coll, keyHash.toGoString)
      ↔ c.ns = ns ∧ c.coll = coll ∧ c.key.getD [] = keyHash.getD [] := by
  cases c <;>
    simp [HashedCall.target, HashedCall.ns, HashedCall.coll, HashedCall.key,
      toGoString_eq_getD]

/-- C3: on a batch obtained from `NewHashedUpdateBatch()` by `Put` and `Delete` calls,
`Contains(ns, coll, keyHash)` is true if and only if some call of the sequence was made
with the same namespace, the same collection and a key whose bytes (`key.getD []`, a nil
slice having none) are equal, byte for byte and in length, to the bytes of `keyHash`. So
it is true for a written zero-length key and false for a key that differs from every
written key in a byte or in length; and it is true right after a `Put` or a `Delete` with
that key, on any batch. -/
theorem C3_contains_iff_written (calls : List HashedCall) (ns coll : GoString)
    (keyHash : GoBytes) :
    ((runHashedCalls NewHashedUpdateBatch calls).Contains ns coll keyHash = true
      ↔ ∃ c ∈ calls, c.ns = ns ∧ c.coll = coll ∧ c.key.getD [] = keyHash.getD []) ∧
    (∀ (h : HashedUpdateBatch) (value : GoBytes) (ver : Option version.Height),
      (h.Put ns coll keyHash value ver).Contains ns coll keyHash = true ∧
      (h.Delete ns coll keyHash ver).Contains ns coll keyHash = true) := by
  refine ⟨?_, fun h value ver => ⟨?_, ?_⟩⟩
  · rw [HashedUpdateBatch.Contains_run]
    simp only [HashedCall.target_eq_iff]
    simp [HashedUpdateBatch.Contains, NewHashedUpdateBatch, GoMap.get]
  · exact (HashedUpdateBatch.Contains_apply h (.put ns coll keyHash value ver) ns coll
      keyHash).mpr (Or.inl rfl)
  · exact (HashedUpdateBatch.Contains_apply h (.delete ns coll keyHash ver) ns coll
      keyHash).mpr (Or.inl rfl)

/-- C4: on a map obtained from the empty map by `Put`, `Delete` and `Get` calls,
`IsEmpty()` is true if and only if the sequence holds no `Put` and no `Delete`; a `Put`
or a `Delete` on any map makes it false and a `Get` leaves it as it was. -/
theorem C4_isEmpty_iff_no_write (calls : List MapCall) :
    ((runMapCalls [] calls).IsEmpty = true ↔ ∀ c ∈ calls, c.isWrite = false) ∧
    (∀ (b : UpdateMap) (ns coll key : GoString) (value : GoBytes) (ver : Option version.Height),
      (b.Put ns coll key value ver).IsEmpty = false ∧
      (b.Delete ns coll key ver).IsEmpty = false ∧
      (MapCall.apply b (.get ns coll key)).IsEmpty = b.IsEmpty) := by
  refine ⟨?_, ?_⟩
  · rw [UpdateMap.IsEmpty_run]
    simp [UpdateMap.IsEmpty, GoMap.len]
  · intro b ns coll key value ver
    refine ⟨?_, ?_, rfl⟩
    · have := UpdateMap.IsEmpty_apply b (.put ns coll key value ver)
      simpa [MapCall.apply, MapCall.isWrite] using this
    · have := UpdateMap.IsEmpty_apply b (.delete ns coll key ver)
      simpa [MapCall.apply, MapCall.isWrite] using this

/-! ## Claims on the composite keys -/

/-- C5: purge-index key round trip. For every block height `h` of type `uint64` and all
strings `txid` and `eid`, the empty string included,
`splitCompositeKeyOfPurgeIndex(createCompositeKeyForPurgeIndex(h, txid, eid))` returns
exactly `(txid, eid, h)`. -/
theorem C5_purge_index_key_round_trip (h : Nat) (txid eid : GoString) (hh : h < 2 ^ 64) :
    splitCompositeKeyOfPurgeIndex (createCompositeKeyForPurgeIndex h txid eid)
      = (txid, eid, h) :=
  splitCompositeKeyOfPurgeIndex_create h txid eid hh

/-- C5 at height 20000 with transaction id "txid" and the empty endorser id. -/
theorem C5_purge_index_key_round_trip_witness :
    20000 < 2 ^ 64 ∧
    splitCompositeKeyOfPurgeIndex (createCompositeKeyForPurgeIndex 20000 [116, 120, 105, 100] [])
      = ([116, 120, 105, 100], [], 20000) :=
  ⟨by decide, C5_purge_index_key_round_trip 20000 [116, 120, 105, 100] [] (by decide)⟩

/-- C6: data key round trip. For all strings `txid` and `eid`, the empty string included,
and every block height `h` of type `uint64`,
`splitCompositeKeyOfPRWSet(createCompositeKeyForPRWSet(txid, eid, h))` returns exactly
`(eid, h)`. -/
theorem C6_prwset_key_round_trip (txid eid : GoString) (h : Nat) (hh : h < 2 ^ 64) :
    splitCompositeKeyOfPRWSet (createCompositeKeyForPRWSet txid eid h) = (eid, h) :=
  splitCompositeKeyOfPRWSet_create txid eid h hh

/-- C6 at the empty transaction id, an endorser id holding the delimiter byte, and the
largest height. -/
theorem C6_prwset_key_round_trip_witness :
    2 ^ 64 - 1 < 2 ^ 64 ∧
    splitCompositeKeyOfPRWSet (createCompositeKeyForPRWSet [] [101, 0, 1] (2 ^ 64 - 1))
      = ([101, 0, 1], 2 ^ 64 - 1) :=
  ⟨by decide, C6_prwset_key_round_trip [] [101, 0, 1] (2 ^ 64 - 1) (by decide)⟩

/-- C10: purge-index key order. For any two triples with `uint64` heights, the first key
is byte-lexicographically smaller than the second exactly when the first triple is smaller
in the order by numeric height, then transaction id, then endorser id; the keys are equal
exactly when the triples are; and `h1 < h2` makes the first key strictly smaller whatever
the strings are. -/
theorem C10_purge_index_key_order (h1 h2 : Nat) (txid1 eid1 txid2 eid2 : GoString)
    (hh1 : h1 < 2 ^ 64) (hh2 : h2 < 2 ^ 64) :
    bytesLt (createCompositeKeyForPurgeIndex h1 txid1 eid1)
        (createCompositeKeyForPurgeIndex h2 txid2 eid2)
      = tripleLt (h1, txid1, eid1) (h2, txid2, eid2) ∧
    (createCompositeKeyForPurgeIndex h1 txid1 eid1
        = createCompositeKeyForPurgeIndex h2 txid2 eid2
      ↔ (h1, txid1, eid1) = (h2, txid2, eid2)) ∧
    (h1 < h2 →
      bytesLt (createCompositeKeyForPurgeIndex h1 txid1 eid1)
        (createCompositeKeyForPurgeIndex h2 txid2 eid2) = true) := by
  have hlt := bytesLt_createCompositeKeyForPurgeIndex h1 h2 txid1 eid1 txid2 eid2 hh1 hh2
  refine ⟨hlt, ⟨fun e => ?_, fun e => ?_⟩, fun hlt12 => ?_⟩
  · obtain ⟨a, b, c⟩ :=
      createCompositeKeyForPurgeIndex_injective h1 h2 txid1 eid1 txid2 eid2 hh1 hh2 e
    rw [a, b, c]
  · simp only [Prod.mk.injEq] at e
    rw [e.1, e.2.1, e.2.2]
  · rw [hlt]
    simp [tripleLt, hlt12]

/-- C10 at heights 255 and 256 with strings that compare the other way. -/
theorem C10_purge_index_key_order_witness :
    255 < 2 ^ 64 ∧ 256 < 2 ^ 64 ∧
    bytesLt (createCompositeKeyForPurgeIndex 255 [255, 255] [9])
        (createCompositeKeyForPurgeIndex 256 [] [])
      = tripleLt (255, [255, 255], [9]) (256, [], []) :=
  ⟨by decide, by decide,
    (C10_purge_index_key_order 255 256 [255, 255] [9] [] [] (by decide) (by decide)).1⟩

/-! ## Claims on the transient store -/

/-- C7: purge threshold. On every store reached from the empty store by `Persist` and
`Purge` calls, and for every `uint64` threshold `m`, `Purge(m)` returns no error and the
resulting store holds exactly the records of the prior state whose endorsement block
height is at least `m`, with their payloads, and exactly their purge-index entries; it has
no entry the prior state did not have. When no record lies below `m` the store is
unchanged, `Purge(m)` on the resulting store changes nothing, and `Purge` on the empty
store returns the empty store. -/
theorem C7_purge_threshold (calls : List StoreCall) (m : Nat)
    (hcalls : ∀ c ∈ calls, c.inRange = true) (hm : m < 2 ^ 64) :
    ∃ s s', runStoreCalls newStore calls = .ok s ∧ s.Purge m = .ok s' ∧
      (∀ t e h p, h < 2 ^ 64 → (s'.holdsRecord t e h p ↔ s.holdsRecord t e h p ∧ m ≤ h)) ∧
      (∀ t e h, h < 2 ^ 64 → (s'.holdsIndex t e h ↔ s.holdsIndex t e h ∧ m ≤ h)) ∧
      (∀ k v, s'.db.Get k = some v → s.db.Get k = some v) ∧
      ((∀ t e h p, h < 2 ^ 64 → s.holdsRecord t e h p → m ≤ h) → s' = s) ∧
      s'.Purge m = .ok s' ∧
      newStore.Purge m = .ok newStore := by
  obtain ⟨s, hrun, hc, _, _⟩ := Store.reachable_Refines calls hcalls
  have hc' := Store.Purge_Consistent hc m hm
  refine ⟨s, ⟨s.db.WriteBatch (s.purgeBatch m)⟩, hrun, rfl, ?_, ?_, ?_, ?_, ?_, ?_⟩
  · exact fun t e h p hh => Store.Purge_holdsRecord hc m hm t e h p hh
  · exact fun t e h hh => Store.Purge_holdsIndex hc m hm t e h hh
  · intro k v hk
    rw [Store.Purge_Get] at hk
    split_ifs at hk
    exact hk
  · intro hnone
    have hnil := hc.purgeBatch_eq_nil m hm (fun t e h hh hidx => by
      obtain ⟨_, p, hp⟩ := hc.record_of_index t e h [] hh hidx
      exact hnone t e h p hh hp)
    rw [hnil]
    rfl
  · have hnil := hc'.purgeBatch_eq_nil m hm (fun t e h hh hidx =>
      ((Store.Purge_holdsIndex hc m hm t e h hh).mp hidx).2)
    rw [Store.Purge_eq, hnil]
    rfl
  · rfl

/-- C7 on the five records of `TestTransientStorePurge` with the threshold 12. -/
theorem C7_purge_threshold_witness :
    (∀ c ∈ testPurgeCalls, c.inRange = true) ∧ 12 < 2 ^ 64 ∧
    ∃ s s', runStoreCalls newStore testPurgeCalls = .ok s ∧ s.Purge 12 = .ok s' ∧
      (∀ t e h p, h < 2 ^ 64 → (s'.holdsRecord t e h p ↔ s.holdsRecord t e h p ∧ 12 ≤ h)) ∧
      (∀ t e h, h < 2 ^ 64 → (s'.holdsIndex t e h ↔ s.holdsIndex t e h ∧ 12 ≤ h)) ∧
      (∀ k v, s'.db.Get k = some v → s.db.Get k = some v) ∧
      ((∀ t e h p, h < 2 ^ 64 → s.holdsRecord t e h p → 12 ≤ h) → s' = s) ∧
      s'.Purge 12 = .ok s' ∧
      newStore.Purge 12 = .ok newStore :=
  ⟨by decide, by decide, C7_purge_threshold testPurgeCalls 12 (by decide) (by decide)⟩

/-- C8: on every store reached from the empty store by `Persist` and `Purge` calls,
`GetMinEndorsementBlkHt` returns `ErrTransientStoreEmpty` if and only if the store holds
no record; when it holds one, it returns no error and the smallest endorsement block
height among the records held; and after `Purge(m)` on a store that holds a record at
height `m` it returns `m`. -/
theorem C8_min_endorsement_height (calls : List StoreCall)
    (hcalls : ∀ c ∈ calls, c.inRange = true) :
    ∃ s, runStoreCalls newStore calls = .ok s ∧
      (s.GetMinEndorsementBlkHt = .error .ErrTransientStoreEmpty
        ↔ ∀ t e h p, h < 2 ^ 64 → ¬ s.holdsRecord t e h p) ∧
      ((∃ t e h p, h < 2 ^ 64 ∧ s.holdsRecord t e h p) →
        ∃ n, s.GetMinEndorsementBlkHt = .ok n ∧ (∃ t e p, s.holdsRecord t e n p) ∧
          ∀ t e h p, h < 2 ^ 64 → s.holdsRecord t e h p → n ≤ h) ∧
      (∀ m t e p, m < 2 ^ 64 → s.holdsRecord t e m p →
        ∃ s', s.Purge m = .ok s' ∧ s'.GetMinEndorsementBlkHt = .ok m) := by
  obtain ⟨s, hrun, hc, _, _⟩ := Store.reachable_Refines calls hcalls
  obtain ⟨hempty, hmin⟩ := hc.GetMinEndorsementBlkHt_spec
  refine ⟨s, hrun, hempty, ?_, ?_⟩
  · intro hex
    obtain ⟨n, hn, _, hheld, hle⟩ := hmin hex
    exact ⟨n, hn, hheld, hle⟩
  · intro m t e p hm hrec
    have hc' := Store.Purge_Consistent hc m hm
    refine ⟨⟨s.db.WriteBatch (s.purgeBatch m)⟩, rfl, ?_⟩
    have hrec' := (Store.Purge_holdsRecord hc m hm t e m p hm).mpr ⟨hrec, le_refl m⟩
    obtain ⟨n, hn, hnlt, ⟨t', e', p', hheld⟩, hle⟩ :=
      hc'.GetMinEndorsementBlkHt_spec.2 ⟨t, e, m, p, hm, hrec'⟩
    have h1 := hle t e m p hm hrec'
    have h2 := ((Store.Purge_holdsRecord hc m hm t' e' n p' hnlt).mp hheld).2
    have hnm : n = m := by omega
    rw [hn, hnm]

/-- C8 on the five records of `TestTransientStorePurge`. -/
theorem C8_min_endorsement_height_witness :
    (∀ c ∈ testPurgeCalls, c.inRange = true) ∧
    ∃ s, runStoreCalls newStore testPurgeCalls = .ok s ∧
      (s.GetMinEndorsementBlkHt = .error .ErrTransientStoreEmpty
        ↔ ∀ t e h p, h < 2 ^ 64 → ¬ s.holdsRecord t e h p) ∧
      ((∃ t e h p, h < 2 ^ 64 ∧ s.holdsRecord t e h p) →
        ∃ n, s.GetMinEndorsementBlkHt = .ok n ∧ (∃ t e p, s.holdsRecord t e n p) ∧
          ∀ t e h p, h < 2 ^ 64 → s.holdsRecord t e h p → n ≤ h) ∧
      (∀ m t e p, m < 2 ^ 64 → s.holdsRecord t e m p →
        ∃ s', s.Purge m = .ok s' ∧ s'.GetMinEndorsementBlkHt = .ok m) :=
  ⟨by decide, C8_min_endorsement_height testPurgeCalls (by decide)⟩

/-- C9: persist and retrieve. On every store reached from the empty store by `Persist` and
`Purge` calls, `GetTxPrivateRWSetByTxid(txId)` returns no error and yields, each once,
exactly the records (endorser id, endorsement block height, payload) persisted under
`txId` and not since purged, and none persisted under another transaction id only; it
yields the empty sequence when there is none. -/
theorem C9_persist_and_retrieve (calls : List StoreCall) (txid : GoString)
    (hcalls : ∀ c ∈ calls, c.inRange = true) :
    ∃ s l, runStoreCalls newStore calls = .ok s ∧ s.GetTxPrivateRWSetByTxid txid = .ok l ∧
      l.Nodup ∧
      (∀ r, r ∈ l ↔ (txid, r.EndorserId, r.EndorsementBlockHeight,
        r.PrivateSimulationResults) ∈ specRecords calls) ∧
      ((∀ r ∈ specRecords calls, r.1 ≠ txid) → l = []) := by
  obtain ⟨s, hrun, hc, hbound, href⟩ := Store.reachable_Refines calls hcalls
  obtain ⟨l, hl, hnodup, hlb, hmem⟩ := hc.GetTxPrivateRWSetByTxid_spec txid
  have hiff : ∀ r, r ∈ l ↔ (txid, r.EndorserId, r.EndorsementBlockHeight,
      r.PrivateSimulationResults) ∈ specRecords calls := by
    intro r
    constructor
    · intro hr
      have hb := hlb r hr
      exact (href _ _ _ _ hb).mp ((hmem r hb).mp hr)
    · intro hr
      have hb : r.EndorsementBlockHeight < 2 ^ 64 := hbound _ hr
      exact (hmem r hb).mpr ((href _ _ _ _ hb).mpr hr)
  refine ⟨s, l, hrun, hl, hnodup, hiff, ?_⟩
  intro hnone
  rw [List.eq_nil_iff_forall_not_mem]
  intro r hr
  exact hnone _ ((hiff r).mp hr) rfl

/-- C9 on the two records of `TestTransientStorePersistAndRetrieve`. -/
theorem C9_persist_and_retrieve_witness :
    (∀ c ∈ testPersistCalls, c.inRange = true) ∧
    ∃ s l, runStoreCalls newStore testPersistCalls = .ok s ∧
      s.GetTxPrivateRWSetByTxid testTxid = .ok l ∧ l.Nodup ∧
      (∀ r, r ∈ l ↔ (testTxid, r.EndorserId, r.EndorsementBlockHeight,
        r.PrivateSimulationResults) ∈ specRecords testPersistCalls) ∧
      ((∀ r ∈ specRecords testPersistCalls, r.1 ≠ testTxid) → l = []) :=
  ⟨by decide, C9_persist_and_retrieve testPersistCalls testTxid (by decide)⟩

/-! ## Further claims on update maps -/

/-- C11: on a map obtained from the empty map by `Put` and `Delete` calls (and `Get` calls,
which change nothing), `Get(ns, coll, key)` returns none if and only if no `Put` or
`Delete` of the sequence was made on exactly that triple. -/
theorem C11_get_none_iff_unwritten (calls : List MapCall) (ns coll key : GoString) :
    (runMapCalls [] calls).Get ns coll key = none
      ↔ ∀ c ∈ calls, c.target ≠ some (ns, coll, key) := by
  have h := UpdateMap.Get_isSome_reachable calls ns coll key
  constructor
  · intro hnone c hc ht
    have := h.mpr ⟨c, hc, ht⟩
    rw [hnone] at this
    exact absurd this (by decide)
  · intro hall
    cases hg : (runMapCalls [] calls).Get ns coll key with
    | none => rfl
    | some vv =>
      rw [hg] at h
      obtain ⟨c, hc, ht⟩ := h.mp rfl
      exact absurd ht (hall c hc)

/-- C12: the three parts of `NewUpdateBatch()` are empty. `HashUpdates.IsEmpty()` and
`PvtUpdates.IsEmpty()` are true, `PubUpdates` has no updated namespace, `Get` returns none
for every triple on the hashed and the private maps, and `HashUpdates.Contains` is false
for every argument. -/
theorem C12_new_update_batch_empty :
    NewUpdateBatch.HashUpdates.IsEmpty = true ∧
    NewUpdateBatch.PvtUpdates.IsEmpty = true ∧
    NewUpdateBatch.PubUpdates.GetUpdatedNamespaces = [] ∧
    (∀ ns coll key, NewUpdateBatch.HashUpdates.Get ns coll key = none) ∧
    (∀ ns coll key, NewUpdateBatch.PvtUpdates.Get ns coll key = none) ∧
    (∀ ns coll keyHash, NewUpdateBatch.HashUpdates.Contains ns coll keyHash = false) :=
  ⟨rfl, rfl, rfl, fun _ _ _ => rfl, fun _ _ _ => rfl, fun _ _ _ => rfl⟩

/-- C13, the code at the failing input `m := NewPvtUpdateBatch(); m.Put("ns", "c", "k",
[]byte("v"), nil)`: the map holds one namespace, so `len(m)` is 1 and `m.IsEmpty()`
returns false, where the doc comment of `IsEmpty` says it returns true if there exists any
updates. -/
theorem C13_isEmpty_false_after_put :
    GoMap.len (NewPvtUpdateBatch.UpdateMap.Put [110, 115] [99] [107] (some [118]) none) = 1 ∧
    (NewPvtUpdateBatch.UpdateMap.Put [110, 115] [99] [107] (some [118]) none).IsEmpty
      = false := by
  decide

/-- On every map, `IsEmpty()` returns false as soon as `Get` finds a pending entry. -/
theorem isEmpty_false_of_pending_entry (b : UpdateMap) (ns coll key : GoString)
    (vv : statedb.VersionedValue) (h : b.Get ns coll key = some vv) : b.IsEmpty = false := by
  cases b with
  | nil => simp [UpdateMap.Get_nil] at h
  | cons e b => rfl

/-- C14, the code at the failing input `m := NewPvtUpdateBatch(); m.Delete("ns", "c", "k",
&version.Height{BlockNum: 1})`: `Delete` stores a sub-batch under "ns" and hands the
delete to it, so afterwards `len(m)` is 1, `m.IsEmpty()` is false and the entry of "ns" is
the sub-batch that received the delete; nothing is taken out of the batch, where the doc
comment of `Delete` says it removes the entry from the batch. -/
theorem C14_delete_keeps_entry :
    GoMap.len (NewPvtUpdateBatch.UpdateMap.Delete [110, 115] [99] [107] (some ⟨1, 0⟩)) = 1 ∧
    (NewPvtUpdateBatch.UpdateMap.Delete [110, 115] [99] [107] (some ⟨1, 0⟩)).IsEmpty
      = false ∧
    GoMap.get (NewPvtUpdateBatch.UpdateMap.Delete [110, 115] [99] [107] (some ⟨1, 0⟩))
        [110, 115]
      = some ⟨statedb.NewUpdateBatch.Delete [99] [107] (some ⟨1, 0⟩)⟩ := by
  decide

/-- With the sub-batch as the specification describes it, after `b.Delete(ns, coll, key,
ver)` the batch holds a tombstone for `(ns, coll, key)`: `Get` returns a present entry
with no value and the version `ver` and, on a `HashedUpdateBatch`, `Contains` returns
true. -/
theorem Delete_records_tombstone (b : UpdateMap) (h : HashedUpdateBatch)
    (ns coll key : GoString) (keyHash : GoBytes) (ver : Option version.Height) :
    (b.Delete ns coll key ver).Get ns coll key = some ⟨none, ver⟩ ∧
    (h.Delete ns coll keyHash ver).Contains ns coll keyHash = true := by
  have hget : ∀ (m : UpdateMap) (k : GoString),
      (m.Delete ns coll k ver).Get ns coll k = some ⟨none, ver⟩ := by
    intro m k
    rw [UpdateMap.Get_Delete, if_pos rfl]
  refine ⟨hget b key, ?_⟩
  rw [HashedUpdateBatch.Contains_eq]
  simp only [HashedUpdateBatch.Delete, hget, Option.isSome_some]

/-- C15: frame of a write. For every map and every two triples that differ in at least
one component, a `Put` or a `Delete` on the first leaves the result of `Get` on the second
unchanged. -/
theorem C15_write_frame (b : UpdateMap) (ns coll key ns' coll' key' : GoString)
    (value : GoBytes) (ver : Option version.Height)
    (hne : (ns, coll, key) ≠ (ns', coll', key')) :
    (b.Put ns coll key value ver).Get ns' coll' key' = b.Get ns' coll' key' ∧
    (b.Delete ns coll key ver).Get ns' coll' key' = b.Get ns' coll' key' := by
  rw [UpdateMap.Get_Put, UpdateMap.Get_Delete, if_neg hne, if_neg hne]
  exact ⟨rfl, rfl⟩

/-- C15 on a map that holds one entry, with a write in the same namespace and collection
under another key, and with a write that creates a namespace. -/
theorem C15_write_frame_witness :
    (([110], [99], [1]) : GoString × GoString × GoString) ≠ ([110], [99], [2]) ∧
    ((UpdateMap.Put [] [110] [99] [2] (some [7]) none).Put [110] [99] [1] (some [8]) none).Get
        [110] [99] [2]
      = (UpdateMap.Put [] [110] [99] [2] (some [7]) none).Get [110] [99] [2] ∧
    ((UpdateMap.Put [] [110] [99] [2] (some [7]) none).Delete [110] [99] [1] none).Get
        [110] [99] [2]
      = (UpdateMap.Put [] [110] [99] [2] (some [7]) none).Get [110] [99] [2] :=
  ⟨by decide,
    C15_write_frame (UpdateMap.Put [] [110] [99] [2] (some [7]) none) [110] [99] [1]
      [110] [99] [2] (some [8]) none (by decide)⟩

/-- C16: no empty namespace. In every map reached from the empty map by `Put` calls with
non-nil values and `Delete` calls, every namespace of the map holds a sub-batch with at
least one pending entry; `IsEmpty()` is true exactly when `Get` finds no pending entry at
all; and the namespaces of the map, each there once, are exactly the namespaces named by
some `Put` or `Delete`. -/
theorem C16_no_empty_namespace (calls : List MapCall)
    (_hvalues : ∀ c ∈ calls, c.nonNilValue = true) :
    (∀ ns batch, (ns, batch) ∈ runMapCalls [] calls →
      ∃ coll key vv, batch.UpdateBatch.Get coll key = some vv) ∧
    ((runMapCalls [] calls).IsEmpty = true
      ↔ ∀ ns coll key, (runMapCalls [] calls).Get ns coll key = none) ∧
    ((runMapCalls [] calls).map Prod.fst).Nodup ∧
    (∀ ns, ns ∈ (runMapCalls [] calls).map Prod.fst
      ↔ ∃ c ∈ calls, ∃ coll key, c.target = some (ns, coll, key)) := by
  have hentry : ∀ ns batch, (ns, batch) ∈ runMapCalls [] calls →
      ∃ coll key vv, batch.UpdateBatch.Get coll key = some vv := by
    intro ns batch hmem
    have hne := UpdateMap.nonempty_run calls [] (by simp) (ns, batch) hmem
    obtain ⟨k, vv, _, hget⟩ := GoMap.exists_get_of_ne_nil _ hne
    exact ⟨k.1, k.2, vv, hget⟩
  refine ⟨hentry, ⟨fun hempty ns coll key => ?_, fun hnone => ?_⟩,
    UpdateMap.keys_nodup_run calls [] (by simp), fun ns => ?_⟩
  · rw [(UpdateMap.IsEmpty_iff _).mp hempty]
    rfl
  · rw [UpdateMap.IsEmpty_iff]
    by_contra hne
    obtain ⟨ns, batch, hmem, hget⟩ := GoMap.exists_get_of_ne_nil _ hne
    obtain ⟨coll, key, vv, hvv⟩ := hentry ns batch hmem
    have := hnone ns coll key
    simp only [UpdateMap.Get, hget, hvv] at this
    exact absurd this (by simp)
  · rw [UpdateMap.keys_run]
    simp

/-- C16 on a `Put`, a `Delete` in another namespace and a `Get` in a third. -/
theorem C16_no_empty_namespace_witness :
    (∀ c ∈ [MapCall.put [110] [99] [1] (some [7]) none, MapCall.delete [111] [99] [2] none,
        MapCall.get [112] [99] [3]], c.nonNilValue = true) ∧
    ((runMapCalls [] [MapCall.put [110] [99] [1] (some [7]) none,
        MapCall.delete [111] [99] [2] none, MapCall.get [112] [99] [3]]).map Prod.fst).Nodup :=
  ⟨by decide,
    (C16_no_empty_namespace [MapCall.put [110] [99] [1] (some [7]) none,
      MapCall.delete [111] [99] [2] none, MapCall.get [112] [99] [3]] (by decide)).2.2.1⟩

/-- C17: `Contains` agrees with `Get`. On every batch reached from
`NewHashedUpdateBatch()` by `Put` and `Delete` calls, `Contains(ns, coll, keyHash)` is true
if and only if `Get(ns, coll, string(keyHash))` returns a present entry; the conversion
`string(key)` is injective on byte sequences; and a write under a key of other bytes leaves
the entry of `keyHash` as it was. -/
theorem C17_contains_agrees_with_get (calls : List HashedCall) (ns coll : GoString)
    (keyHash : GoBytes) :
    ((runHashedCalls NewHashedUpdateBatch calls).Contains ns coll keyHash = true
      ↔ ∃ vv, (runHashedCalls NewHashedUpdateBatch calls).Get ns coll keyHash.toGoString
          = some vv) ∧
    (∀ k₁ k₂ : List Byte,
      GoBytes.toGoString (some k₁) = GoBytes.toGoString (some k₂) → k₁ = k₂) ∧
    (∀ (h : HashedUpdateBatch) (key value : GoBytes) (ver : Option version.Height),
      key.toGoString ≠ keyHash.toGoString →
        (h.Put ns coll key value ver).Get ns coll keyHash.toGoString
          = h.Get ns coll keyHash.toGoString ∧
        (h.Delete ns coll key ver).Get ns coll keyHash.toGoString
          = h.Get ns coll keyHash.toGoString ∧
        (h.Put ns coll key value ver).Contains ns coll keyHash = h.Contains ns coll keyHash ∧
        (h.Delete ns coll key ver).Contains ns coll keyHash = h.Contains ns coll keyHash) := by
  refine ⟨?_, fun k₁ k₂ h => h, ?_⟩
  · rw [HashedUpdateBatch.Contains_eq, Option.isSome_iff_exists]
    rfl
  · intro h key value ver hne
    have hne3 : ¬ (ns, coll, key.toGoString) = (ns, coll, keyHash.toGoString) := by
      intro e
      simp only [Prod.mk.injEq, true_and] at e
      exact hne e
    have hput : (h.Put ns coll key value ver).Get ns coll keyHash.toGoString
        = h.Get ns coll keyHash.toGoString := by
      simp only [HashedUpdateBatch.Get, HashedUpdateBatch.Put, UpdateMap.Get_Put, if_neg hne3]
    have hdel : (h.Delete ns coll key ver).Get ns coll keyHash.toGoString
        = h.Get ns coll keyHash.toGoString := by
      simp only [HashedUpdateBatch.Get, HashedUpdateBatch.Delete, UpdateMap.Get_Delete,
        if_neg hne3]
    refine ⟨hput, hdel, ?_, ?_⟩
    · simp only [HashedUpdateBatch.Get] at hput
      rw [HashedUpdateBatch.Contains_eq, HashedUpdateBatch.Contains_eq, hput]
    · simp only [HashedUpdateBatch.Get] at hdel
      rw [HashedUpdateBatch.Contains_eq, HashedUpdateBatch.Contains_eq, hdel]

/-- C18: for every sub-batch stored under a namespace in a map reached from the empty map
by `Put` and `Delete` calls, `GetCollectionNames()` returns, without duplicates, exactly
the collection names for which some `Put` or `Delete` was made in that namespace. -/
theorem C18_collection_names (calls : List MapCall) (ns : GoString) (batch : nsBatch)
    (hstored : (ns, batch) ∈ runMapCalls [] calls) :
    batch.GetCollectionNames.Nodup ∧
    ∀ coll, coll ∈ batch.GetCollectionNames
      ↔ ∃ c ∈ calls, ∃ key, c.target = some (ns, coll, key) := by
  have hget := GoMap.get_of_mem_of_nodup _ ns batch
    (UpdateMap.keys_nodup_run calls [] (by simp)) hstored
  refine ⟨List.nodup_dedup _, fun coll => ?_⟩
  rw [mem_GetCollectionNames]
  have hG : ∀ key, batch.UpdateBatch.Get coll key = (runMapCalls [] calls).Get ns coll key := by
    intro key
    simp only [UpdateMap.Get, hget]
  constructor
  · rintro ⟨key, hk⟩
    rw [hG, UpdateMap.Get_isSome_reachable] at hk
    obtain ⟨c, hc, ht⟩ := hk
    exact ⟨c, hc, key, ht⟩
  · rintro ⟨c, hc, key, ht⟩
    exact ⟨key, by rw [hG, UpdateMap.Get_isSome_reachable]; exact ⟨c, hc, ht⟩⟩

/-- C18 on the sub-batch of a namespace written in two collections, one of them twice,
next to a namespace written in a third collection. -/
theorem C18_collection_names_witness :
    (([110] : GoString), (⟨⟨[(([99], [1]), ⟨some [7], none⟩), (([100], [1]), ⟨none, none⟩),
        (([99], [2]), ⟨some [8], none⟩)]⟩⟩ : nsBatch))
      ∈ runMapCalls [] [MapCall.put [110] [99] [1] (some [7]) none,
          MapCall.delete [110] [100] [1] none, MapCall.put [111] [101] [1] (some [9]) none,
          MapCall.put [110] [99] [2] (some [8]) none] ∧
    (nsBatch.GetCollectionNames ⟨⟨[(([99], [1]), ⟨some [7], none⟩),
        (([100], [1]), ⟨none, none⟩), (([99], [2]), ⟨some [8], none⟩)]⟩⟩).Nodup :=
  ⟨by decide,
    (C18_collection_names [MapCall.put [110] [99] [1] (some [7]) none,
      MapCall.delete [110] [100] [1] none, MapCall.put [111] [101] [1] (some [9]) none,
      MapCall.put [110] [99] [2] (some [8]) none] [110]
      ⟨⟨[(([99], [1]), ⟨some [7], none⟩), (([100], [1]), ⟨none, none⟩),
        (([99], [2]), ⟨some [8], none⟩)]⟩⟩ (by decide)).1⟩

/-! ## The tests of the repository, replayed on the model -/

/-- The test `TestPurgeIndexKeyCodingEncoding`: all twelve combinations round-trip. -/
theorem replay_TestPurgeIndexKeyCodingEncoding :
    ∀ blkHt ∈ [0, 10, 20000], ∀ txid ∈ [[116, 120, 105, 100], ([] : GoString)],
      ∀ endorserid ∈ [[101, 110, 100, 111, 114, 115, 101, 114, 105, 100], ([] : GoString)],
        splitCompositeKeyOfPurgeIndex (createCompositeKeyForPurgeIndex blkHt txid endorserid)
          = (txid, endorserid, blkHt) := by
  decide

/-- The test `TestRWSetKeyCodingEncoding`: all twelve combinations round-trip. -/
theorem replay_TestRWSetKeyCodingEncoding :
    ∀ blkHt ∈ [0, 10, 20000], ∀ txid ∈ [[116, 120, 105, 100], ([] : GoString)],
      ∀ endorserid ∈ [[101, 110, 100, 111, 114, 115, 101, 114, 105, 100], ([] : GoString)],
        splitCompositeKeyOfPRWSet (createCompositeKeyForPRWSet txid endorserid blkHt)
          = (endorserid, blkHt) := by
  decide

/-- The test `TestTransientStorePersistAndRetrieve`: both records come back, in order. -/
theorem replay_TestTransientStorePersistAndRetrieve :
    (runStoreCalls newStore testPersistCalls).bind
        (fun s => s.GetTxPrivateRWSetByTxid testTxid)
      = .ok [⟨testEndorser 48, 10, testResults⟩, ⟨testEndorser 49, 10, testResults⟩] := rfl

/-- A record persisted under "txid-10" is not among the records of "txid-1". -/
theorem replay_retrieve_ignores_longer_txid :
    (runStoreCalls newStore
        (testPersistCalls ++ [.persist (testTxid ++ [48]) (testEndorser 50) 10 testResults])).bind
        (fun s => s.GetTxPrivateRWSetByTxid testTxid)
      = .ok [⟨testEndorser 48, 10, testResults⟩, ⟨testEndorser 49, 10, testResults⟩] := rfl

/-- The test `TestTransientStorePurge`: after `Purge(12)` the records at heights 12, 12 and
13 are left and the minimum height is 12; after `Purge(15)` the store is empty, the minimum
is `ErrTransientStoreEmpty`, and a further `Purge(15)` returns no error. -/
theorem replay_TestTransientStorePurge :
    (runStoreCalls newStore (testPurgeCalls ++ [.purge 12])).bind
        (fun s => s.GetTxPrivateRWSetByTxid testTxid)
      = .ok [⟨testEndorser 50, 12, testResults⟩, ⟨testEndorser 51, 12, testResults⟩,
          ⟨testEndorser 52, 13, testResults⟩] ∧
    (runStoreCalls newStore (testPurgeCalls ++ [.purge 12])).bind
        (fun s => s.GetMinEndorsementBlkHt) = .ok 12 ∧
    (runStoreCalls newStore (testPurgeCalls ++ [.purge 12, .purge 15])).bind
        (fun s => s.GetMinEndorsementBlkHt) = .error .ErrTransientStoreEmpty ∧
    runStoreCalls newStore (testPurgeCalls ++ [.purge 12, .purge 15, .purge 15])
      = .ok newStore :=
  ⟨rfl, rfl, rfl, rfl⟩

end Fabric
